import Mathlib

/-!
# Verbweaver backend — node store, codec and repository manager: a shallow embedding

This file embeds the core of `src/backend/app/services/node_service.py` and
`src/backend/app/services/git_service.py` in Lean and proves the claims of the
specification about them.

Modelling conventions:
* Python strings are `List Char`; a filesystem path is a list of segments
  (`List (List Char)`), i.e. the result of splitting the path string on `/`.
* The filesystem is an inductive tree of directories and files.  `os` calls
  resolve `.`/`..` at access time; the model normalises with `normAbs` before
  each lookup, mirroring that.
* `datetime.now().isoformat()` and `generate_id()` are nondeterministic; the
  model passes their results in as oracle arguments.
* `yaml.safe_load` / `yaml.dump` are modelled on the fragment of YAML the
  service itself produces: flat maps from plain scalar keys to plain scalar
  strings or lists of plain scalar strings, dumped with
  `default_flow_style=False, sort_keys=False` (one `k: v` line per scalar
  entry, `k:` followed by `- e` item lines per list entry, `k: []` for an
  empty list, `{}` for the empty map).  `Representable` below delimits this
  fragment; outside it the loader answers `none`, which the parser treats as
  Python treats a `YAMLError`.
* Git calls (`add_and_commit`, `remove_and_commit`) never touch the modelled
  filesystem state and are swallowed on failure per the source, so they are
  omitted from the state transitions.
-/

namespace Verbweaver

/-- Python strings are modelled as lists of characters. -/
abbrev Str := List Char

/-- A filesystem path, as the list of its `/`-separated segments. -/
abbrev Path := List Str

/-- The `\n---\n` delimiter the front-matter regex `^---\n(.*?)\n---\n(.*)$`
searches for after the leading `---\n`. -/
def sepChars : Str := ['\n', '-', '-', '-', '\n']

/-- A YAML value of the service's fragment: a scalar string or a flat list of
scalar strings (the shape of `links` and `tags`). -/
inductive YVal where
  | s (v : Str)
  | arr (elems : List Str)
deriving DecidableEq, Repr

/-- A YAML front-matter map, in insertion order (Python dicts preserve it). -/
abbrev Meta := List (Str × YVal)

/-- Characters PyYAML serialises plainly inside our fragment. -/
def plainChar (c : Char) : Bool := c.isAlphanum || c = '-' || c = '_'

/-- Words PyYAML's resolver would turn into booleans or null. -/
def reservedWords : List Str :=
  ["true", "True", "TRUE", "false", "False", "FALSE", "yes", "Yes", "YES",
   "no", "No", "NO", "on", "On", "ON", "off", "Off", "OFF",
   "null", "Null", "NULL"].map String.toList

/-- A scalar string that PyYAML dumps as itself on one plain line and loads
back unchanged: nonempty, letter-initial, made of word characters, and not a
resolver keyword. -/
def plainScalar : Str → Bool
  | [] => false
  | c :: cs => c.isAlpha && (c :: cs).all plainChar && !(reservedWords.contains (c :: cs))

/-- A value lies in the representable fragment. -/
def reprVal : YVal → Bool
  | .s v => plainScalar v
  | .arr es => es.all plainScalar

/-- Keys are pairwise distinct (Python dicts cannot hold duplicates). -/
def nodupKeys : Meta → Bool
  | [] => true
  | (k, _) :: r => !(r.any (fun p => p.1 == k)) && nodupKeys r

/-- Metadata representable in the structured front-matter format: a duplicate
free map from plain scalar keys to fragment values. -/
def reprMeta (m : Meta) : Bool :=
  m.all (fun p => plainScalar p.1 && reprVal p.2) && nodupKeys m

/-- The lines `yaml.dump` emits for one map entry of the fragment. -/
def entryLines : Str × YVal → List Str
  | (k, .s v) => [k ++ ':' :: ' ' :: v]
  | (k, .arr []) => [k ++ (": []".toList)]
  | (k, .arr es) => (k ++ [':']) :: es.map (fun e => '-' :: ' ' :: e)

/-- All lines of `yaml.dump(metadata)`; the empty dict dumps as `{}`. -/
def dumpLines (m : Meta) : List Str :=
  if m = [] then [['{', '}']] else (m.map entryLines).flatten

/-- Join lines with newlines (no trailing newline). -/
def joinLines : List Str → Str
  | [] => []
  | [l] => l
  | l :: l' :: ls => l ++ '\n' :: joinLines (l' :: ls)

/-- `yaml.dump(metadata, default_flow_style=False, allow_unicode=True,
sort_keys=False)` on the fragment: the dump lines, each newline-terminated. -/
def yamlDump (m : Meta) : Str := joinLines (dumpLines m) ++ ['\n']

/-- `NodeService.stringify_markdown_with_frontmatter`:
`f"---\n{yaml_str}---\n{content}"`. -/
def stringifyMarkdownWithFrontmatter (m : Meta) (content : Str) : Str :=
  "---\n".toList ++ yamlDump m ++ "---\n".toList ++ content

/-- Split a string at the first occurrence of `\n---\n` — the non-greedy
`(.*?)\n---\n` step of the front-matter regex. -/
def splitOnSep : Str → Option (Str × Str)
  | [] => none
  | c :: rest =>
    if (c :: rest).take 5 = sepChars then some ([], (c :: rest).drop 5)
    else
      match splitOnSep rest with
      | some (pre, post) => some (c :: pre, post)
      | none => none

/-- Split a string into its newline-separated lines. -/
def splitLines : Str → List Str
  | [] => [[]]
  | c :: rest =>
    if c = '\n' then [] :: splitLines rest
    else
      match splitLines rest with
      | l :: ls => (c :: l) :: ls
      | [] => [[c]]

/-- Is this line a block-sequence item line `- v`? -/
def isItemLine (l : Str) : Bool := l.take 2 = ['-', ' ']

/-- Parse the `k` / `k: v` shape of a single dump line: the key up to the
first colon, then what follows it. -/
def lineSplit : Str → Str × Str
  | [] => ([], [])
  | c :: rest =>
    if c = ':' then ([], c :: rest)
    else
      let p := lineSplit rest
      (c :: p.1, p.2)

/-- Load the mapping lines of the fragment back into a `Meta`;
`none` plays the role of a `yaml.YAMLError` (or a non-map document). -/
def parseLinesMeta : List Str → Option Meta
  | [] => some []
  | l :: ls =>
    match lineSplit l with
    | (k, ':' :: ' ' :: v) =>
      match parseLinesMeta ls with
      | some m => some ((k, if v = "[]".toList then YVal.arr [] else YVal.s v) :: m)
      | none => none
    | (k, [':']) =>
      let items := ls.takeWhile isItemLine
      if items = [] then none
      else
        match parseLinesMeta (ls.dropWhile isItemLine) with
        | some m => some ((k, YVal.arr (items.map (fun l' => l'.drop 2))) :: m)
        | none => none
    | _ => none
termination_by ls => ls.length
decreasing_by
  · simp [List.length_cons]
  · simp only [List.length_cons]
    exact Nat.lt_succ_of_le (List.dropWhile_sublist _).length_le

/-- `yaml.safe_load` on the fragment (empty text loads as `None or {}`).
Loading is specified only on documents `yamlDump` emits — the flat maps of the
fragment; outside that sublanguage `yaml.safe_load` and this function are not
claimed to agree (nested maps load fine in PyYAML but have no `YVal` image,
and a `k: a: b` line is a PyYAML `ScannerError`), and no theorem below feeds
`yamlLoad` a document outside the dumped fragment. -/
def yamlLoad (y : Str) : Option Meta :=
  if y = [] then some []
  else if y = "{}".toList then some []
  else parseLinesMeta (splitLines y)

/-- `NodeService.parse_markdown_with_frontmatter`: match
`^---\n(.*?)\n---\n(.*)$` with `re.DOTALL`; on a match, `safe_load` the first
group (falling back to `({}, content)` on a load error), else
`({}, content)`. -/
def parseMarkdownWithFrontmatter (content : Str) : Meta × Str :=
  if content.take 4 = "---\n".toList then
    match splitOnSep (content.drop 4) with
    | some (y, body) =>
      match yamlLoad y with
      | some m => (m, body)
      | none => ([], content)
    | none => ([], content)
  else ([], content)

/-! ## The filesystem model -/

/-- A filesystem tree: a file with text content, or a directory with a
name-ordered list of children (the `os.listdir` order). -/
inductive Tree where
  | file (content : Str)
  | dir (children : List (Str × Tree))

/-- Look a name up among directory children. -/
def assocFind (cs : List (Str × Tree)) (s : Str) : Option Tree :=
  match cs with
  | [] => none
  | (n, t) :: rest => if n = s then some t else assocFind rest s

/-- Replace the child of that name, or append a new one. -/
def assocSet (cs : List (Str × Tree)) (s : Str) (t : Tree) : List (Str × Tree) :=
  match cs with
  | [] => [(s, t)]
  | (n, t') :: rest => if n = s then (n, t) :: rest else (n, t') :: assocSet rest s t

/-- Remove the child of that name, if present (directory entry names are
unique on a real filesystem, so this drops at most one entry). -/
def assocRemove (cs : List (Str × Tree)) (s : Str) : List (Str × Tree) :=
  cs.filter (fun p => p.1 ≠ s)

/-- Follow a (already normalised) segment path down the tree. -/
def Tree.lookup : Tree → List Str → Option Tree
  | t, [] => some t
  | t, s :: rest =>
    match t with
    | .file _ => none
    | .dir cs =>
      match assocFind cs s with
      | some c => c.lookup rest
      | none => none

/-- `open(path, 'w').write(c)`: overwrite or create the file at `p`; `none`
models the `OSError` raised when a path component is missing or a directory
stands where a file must go. -/
def Tree.writeFile : Tree → List Str → Str → Option Tree
  | _, [], _ => none
  | .file _, _ :: _, _ => none
  | .dir cs, [s], c =>
    match assocFind cs s with
    | some (.dir _) => none
    | _ => some (.dir (assocSet cs s (.file c)))
  | .dir cs, s :: r :: rest, c =>
    match assocFind cs s with
    | some child =>
      match child.writeFile (r :: rest) c with
      | some child' => some (.dir (assocSet cs s child'))
      | none => none
    | none => none

/-- `os.makedirs(p, exist_ok=True)`: create missing directories along `p`;
`none` models the `OSError` raised when a file blocks the way. -/
def Tree.mkdirs : Tree → List Str → Option Tree
  | .dir cs, [] => some (.dir cs)
  | .file _, [] => none
  | .file _, _ :: _ => none
  | .dir cs, s :: rest =>
    match assocFind cs s with
    | some child =>
      match child.mkdirs rest with
      | some child' => some (.dir (assocSet cs s child'))
      | none => none
    | none =>
      match Tree.mkdirs (.dir []) rest with
      | some child' => some (.dir (assocSet cs s child'))
      | none => none

/-- `os.remove` / `shutil.rmtree`: drop the entry (and hence its subtree) at a
nonempty path; a no-op when the path is missing. -/
def Tree.removePath : Tree → List Str → Tree
  | t, [] => t
  | .file c, _ :: _ => .file c
  | .dir cs, [s] => .dir (assocRemove cs s)
  | .dir cs, s :: r :: rest =>
    match assocFind cs s with
    | some child => .dir (assocSet cs s (child.removePath (r :: rest)))
    | none => .dir cs

/-- Names of the directory-valued children, in listdir order. -/
def childDirNames (cs : List (Str × Tree)) : List Str :=
  cs.filterMap (fun p => match p.2 with | .dir _ => some p.1 | .file _ => none)

/-- Names of the file-valued children, in listdir order. -/
def childFileNames (cs : List (Str × Tree)) : List Str :=
  cs.filterMap (fun p => match p.2 with | .file _ => some p.1 | .dir _ => none)

mutual
/-- `os.walk(start)` (top-down): the `(relative root, dirs, files)` frames, the
current directory's frame first, then each subdirectory's frames in listdir
order.  Walking a file yields nothing, as in Python. -/
def walkTree (base : List Str) : Tree → List (List Str × List Str × List Str)
  | .file _ => []
  | .dir cs => (base, childDirNames cs, childFileNames cs) :: walkChildren base cs

/-- The frames of all subdirectories of a child list. -/
def walkChildren (base : List Str) : List (Str × Tree) → List (List Str × List Str × List Str)
  | [] => []
  | (n, c) :: rest => walkTree (base ++ [n]) c ++ walkChildren base rest
end

/-- One step of POSIX path resolution: `..` pops, `.` and empty segments
vanish, anything else is entered. -/
def normStep (acc : List Str) (s : Str) : List Str :=
  if s = "..".toList then acc.dropLast
  else if s = ".".toList ∨ s = [] then acc
  else acc ++ [s]

/-- Resolve `.` and `..` in a root-anchored segment list, as the OS does when
the joined path string is actually opened. -/
def normAbs (p : List Str) : List Str := p.foldl normStep []

/-! ## The node service -/

/-- Does the string end with the given suffix (`str.endswith`)? -/
def endsWithStr (s suffix : Str) : Bool := suffix.isSuffixOf s

/-- `str.replace(pat, repl)`: replace every occurrence, left to right. -/
def replaceAll (s pat repl : Str) : Str :=
  if h : pat = [] then s
  else
    match s with
    | [] => []
    | c :: rest =>
      if pat.isPrefixOf (c :: rest) then repl ++ replaceAll ((c :: rest).drop pat.length) pat repl
      else c :: replaceAll rest pat repl
termination_by s.length
decreasing_by
  · simp only [List.length_drop, List.length_cons]
    have hp : 0 < pat.length := List.length_pos.mpr h
    omega
  · simp

/-- The characters `re.sub(r'[<>:"/\\|?*]', '-', name)` replaces. -/
def isIllegalChar (c : Char) : Bool :=
  c = '<' || c = '>' || c = ':' || c = '"' || c = '/' || c = '\\' || c = '|' || c = '?' || c = '*'

/-- The whitespace `str.strip()` removes at either end. -/
def isPyWS (c : Char) : Bool :=
  c = ' ' || c = '\t' || c = '\n' || c = '\r' || c = '\x0b' || c = '\x0c'

/-- Collapse every run of dashes to a single dash (`re.sub(r'-+', '-', s)`). -/
def collapseDashes : Str → Str
  | [] => []
  | [c] => [c]
  | c₁ :: c₂ :: rest =>
    if c₁ = '-' ∧ c₂ = '-' then collapseDashes (c₂ :: rest)
    else c₁ :: collapseDashes (c₂ :: rest)

/-- `NodeService.sanitize_filename`: substitute illegal characters with `-`,
strip surrounding whitespace, collapse dash runs. -/
def sanitizeFilename (name : Str) : Str :=
  collapseDashes
    ((((name.map (fun c => if isIllegalChar c then '-' else c)).dropWhile isPyWS).reverse.dropWhile
        isPyWS).reverse)

/-! Dictionary operations on `Meta`, mirroring Python dict semantics. -/

/-- `m[k]`-lookup: the value at the first (for a Python dict: only) binding. -/
def dictGet (m : Meta) (k : Str) : Option YVal :=
  match m with
  | [] => none
  | (k', v) :: rest => if k' = k then some v else dictGet rest k

/-- `m[k] = v`: overwrite the binding in place, or append it. -/
def dictSet (m : Meta) (k : Str) (v : YVal) : Meta :=
  match m with
  | [] => [(k, v)]
  | (k', v') :: rest => if k' = k then (k', v) :: rest else (k', v') :: dictSet rest k v

/-- `m.update(u)`: apply `dictSet` for each binding of `u` in order. -/
def dictUpdate (m u : Meta) : Meta := u.foldl (fun acc p => dictSet acc p.1 p.2) m

/-- `metadata.get('links', [])`, read as a list of target ids (values outside
the fragment are not modelled and read as the empty list). -/
def getLinks (m : Meta) : List Str :=
  match dictGet m ("links".toList) with
  | some (.arr es) => es
  | _ => []

/-- Read a scalar value, with a default (`metadata.get(k, d)`). -/
def getStrD (m : Meta) (k : Str) (d : Str) : Str :=
  match dictGet m k with
  | some (.s v) => v
  | _ => d

/-- The serialisable node structure `read_node` returns. -/
structure NodeOut where
  path : Path
  name : Str
  isDirectory : Bool
  isMarkdown : Bool
  metadata : Meta
  content : Option Str
  parent : Option Path
  children : List Path
  softLinks : List Str
  hasTask : Bool
  taskStatus : Option Str
deriving DecidableEq, Repr

/-- The absolute path of a node's sidecar `f"{full_path}.metadata.md"`: the
suffix attaches to the joined string's last raw segment, then the OS resolves
the result. -/
def sidecarAbs (proj : List Str) (path : Path) : List Str :=
  normAbs ((proj ++ path).dropLast ++ [(proj ++ path).getLastD [] ++ ".metadata.md".toList])

/-- The default metadata `read_node` generates before overlaying parsed
metadata; `oid` and `onow` stand for `generate_id()` and
`datetime.now().isoformat()`. -/
def defaultMeta (name : Str) (isDir isMd : Bool) (oid onow : Str) : Meta :=
  [("id".toList, .s oid),
   ("title".toList, .s (if isMd then replaceAll name (".md".toList) [] else name)),
   ("type".toList, .s (if isDir then "folder".toList else "file".toList)),
   ("created".toList, .s onow),
   ("modified".toList, .s onow)]

/-- `NodeService.read_node`.  `none` covers the two ways the source yields no
node: Python's `None` for a missing path, and the `AttributeError` escape of
the final dict literal — `metadata.get('task', {}).get('status')` runs
whenever `'task' in metadata`, and every `task` value representable in the
map-free fragment (a scalar or a string list) has no `.get`, so the read
raises.  (A map-valued `task`, which the source tolerates, lies outside the
fragment and is not modelled.)  The oracle arguments feed the freshly
generated id and timestamps of the default metadata. -/
def readNode (t : Tree) (proj : List Str) (path : Path) (oid onow : Str) : Option NodeOut :=
  match t.lookup (normAbs (proj ++ path)) with
  | none => none
  | some entry =>
    let isDir : Bool := match entry with | .dir _ => true | .file _ => false
    let name := path.getLastD []
    let isMd := endsWithStr name (".md".toList)
    let base := defaultMeta name isDir isMd oid onow
    let meta :=
      match entry with
      | .file c =>
        if isMd then dictUpdate base (parseMarkdownWithFrontmatter c).1
        else
          match t.lookup (sidecarAbs proj path) with
          | some (.file mc) => dictUpdate base (parseMarkdownWithFrontmatter mc).1
          | _ => base
      | .dir _ => base
    if (dictGet meta ("task".toList)).isSome then none
    else some
      { path := path
        name := name
        isDirectory := isDir
        isMarkdown := isMd
        metadata := meta
        content :=
          match entry with
          | .file c => if isMd then some (parseMarkdownWithFrontmatter c).2 else none
          | .dir _ => none
        parent := if 2 ≤ path.length then some path.dropLast else none
        children :=
          match entry with
          | .dir cs => cs.map (fun p => path ++ [p.1])
          | .file _ => []
        softLinks := getLinks meta
        hasTask := (dictGet meta ("task".toList)).isSome
        taskStatus := none }

/-- `NodeService.create_node`.  Returns the new tree and the project-relative
path of the created node; `none` is a filesystem error.  There is no
validation of the sanitised name.  (The final `read_node` only rebuilds the
return payload; the state transition is what is modelled.) -/
def createNodeTree (t : Tree) (proj : List Str) (parentPath : Path) (name : Str)
    (nodeType : Str) (initialMetadata : Option Meta) (initialContent : Option Str)
    (oid onow : Str) : Option (Tree × Path) :=
  let sanitized := sanitizeFilename name
  let filename := if endsWithStr sanitized (".md".toList) then sanitized
    else sanitized ++ ".md".toList
  let path := parentPath ++ [filename]
  let dirFull := normAbs (proj ++ parentPath)
  match t.mkdirs dirFull with
  | none => none
  | some t₁ =>
    let base :=
      [("id".toList, YVal.s oid),
       ("title".toList, YVal.s (replaceAll sanitized (".md".toList) [])),
       ("type".toList, YVal.s nodeType),
       ("created".toList, YVal.s onow),
       ("modified".toList, YVal.s onow)]
    let meta := dictUpdate base (initialMetadata.getD [])
    let defContent := '#' :: ' ' :: getStrD meta ("title".toList) [] ++ ['\n', '\n']
    let content :=
      match initialContent with
      | some c => if c = [] then defContent else c
      | none => defContent
    match t₁.writeFile (dirFull ++ [filename]) (stringifyMarkdownWithFrontmatter meta content) with
    | some t₂ => some (t₂, path)
    | none => none

/-- `NodeService.update_node`.  `none` is any error escape: the
`FileNotFoundError` when the node is missing, the `AttributeError` the initial
`read_node` raises on a non-map `task` value (nothing is written then), or a
filesystem write error.  `oid`/`onow` feed the internal `read_node`; `now₂` is
the `modified` timestamp.  (The source's final re-read only rebuilds the
return payload; the state transition is what is modelled.) -/
def updateNodeTree (t : Tree) (proj : List Str) (path : Path) (metadataUpdates : Option Meta)
    (content : Option Str) (oid onow now₂ : Str) : Option Tree :=
  match readNode t proj path oid onow with
  | none => none
  | some node =>
    let updated := dictSet (dictUpdate node.metadata (metadataUpdates.getD []))
      ("modified".toList) (.s now₂)
    let updContent : Option Str :=
      match content with
      | some c => some c
      | none => node.content
    if node.isMarkdown ∧ updContent.isSome then
      t.writeFile (normAbs (proj ++ path))
        (stringifyMarkdownWithFrontmatter updated (updContent.getD []))
    else
      t.writeFile (sidecarAbs proj path) (stringifyMarkdownWithFrontmatter updated [])

/-- `NodeService.delete_node`.  `none` is the `FileNotFoundError`; otherwise
the entry (with its whole subtree) disappears, then the sidecar if it still
exists. -/
def deleteNodeTree (t : Tree) (proj : List Str) (path : Path) : Option Tree :=
  let full := normAbs (proj ++ path)
  match t.lookup full with
  | none => none
  | some _ =>
    let t₁ := t.removePath full
    let scar := sidecarAbs proj path
    match t₁.lookup scar with
    | some _ => some (t₁.removePath scar)
    | none => some t₁

/-- `NodeService.list_nodes`: walk the start directory, skip every frame whose
relative root has a `templates` segment when excluding templates, then emit
directory nodes (not hidden; not `templates` at the root when excluding) and
file nodes (not hidden; not sidecars) of each frame.  (A node whose metadata
carries a non-map `task` makes the source's per-entry `read_node` raise and
abort the whole listing; the `filterMap` here drops it instead — when no such
node occurs the two agree, and the theorems below stay inside that region or
quantify only over emitted nodes, which is vacuously faithful under the
abort.) -/
def listNodes (t : Tree) (proj : List Str) (directory : Option Path)
    (excludeTemplates : Bool) (oid onow : Str) : List NodeOut :=
  let baseRel := directory.getD []
  let frames :=
    match t.lookup (normAbs (proj ++ baseRel)) with
    | some sub => walkTree baseRel sub
    | none => []
  frames.flatMap (fun fr =>
    if excludeTemplates ∧ "templates".toList ∈ fr.1 then []
    else
      (fr.2.1.filterMap (fun d =>
        if d.head? = some '.' then none
        else if excludeTemplates ∧ fr.1 = [] ∧ d = "templates".toList then none
        else readNode t proj (fr.1 ++ [d]) oid onow)) ++
      (fr.2.2.filterMap (fun f =>
        if f.head? = some '.' then none
        else if endsWithStr f (".metadata.md".toList) then none
        else readNode t proj (fr.1 ++ [f]) oid onow)))

/-- The text written by the synthesising fallback branch of
`create_empty_template`: `stringify_markdown_with_frontmatter` applied to the
fixed metadata literal of the source (PyYAML's dump of that dict inlined,
since its nested `task` map and empty strings lie outside the fragment) and
the body `"# {title}\n\n{description}"`. -/
def emptyTemplateFallback (onow : Str) : Str :=
  "---\nid: ''\ntitle: Empty\ntype: file\ncreated: '".toList ++ onow ++
  "'\nmodified: '".toList ++ onow ++
  ("'\ndescription: ''\ntags: []\nlinks: []\ntask:\n  status: todo\n" ++
   "  priority: medium\n  assignee: null\n  dueDate: null\n  completedDate: null\n" ++
   "  description: ''\n---\n# {title}\n\n{description}").toList

/-- `NodeService.create_empty_template`: ensure `templates/` exists; when
`templates/Empty.md` is absent, either copy the bundled asset with its
placeholder timestamps replaced (`srcAsset = some _`) or write the synthesized
fallback; when it is present, do nothing. -/
def createEmptyTemplate (t : Tree) (proj : List Str) (srcAsset : Option Str)
    (onow : Str) : Option Tree :=
  match t.mkdirs (normAbs (proj ++ [("templates".toList)])) with
  | none => none
  | some t₁ =>
    let dest := normAbs (proj ++ [("templates".toList)]) ++ [("Empty.md".toList)]
    match t₁.lookup dest with
    | some _ => some t₁
    | none =>
      match srcAsset with
      | some asset =>
        let c₁ := replaceAll asset ("created: '2024-01-01T00:00:00'".toList)
          ("created: '".toList ++ onow ++ ['\''])
        let c₂ := replaceAll c₁ ("modified: '2024-01-01T00:00:00'".toList)
          ("modified: '".toList ++ onow ++ ['\''])
        t₁.writeFile dest c₂
      | none => t₁.writeFile dest (emptyTemplateFallback onow)

/-- The relevant slice of a project's `git_config`. -/
structure GitCfg where
  ctype : Option Str
  cpath : Option Str

/-- Segments of a path string: split on `/`, dropping empty segments and `.`
as `pathlib.PurePath` does (`..` is kept). -/
def segsOf (s : Str) : List Str :=
  (s.splitOn '/').filter (fun seg => seg ≠ [] ∧ seg ≠ ".".toList)

/-- Join segments back into an absolute path string. -/
def joinAbs (segs : List Str) : Str :=
  '/' :: (List.intercalate ['/'] segs)

/-- `str(Path(p).resolve())`: anchor at `cwd` when relative, then resolve
`.`/`..` lexically (no symlinks in the model). -/
def resolveStr (cwd p : Str) : Str :=
  joinAbs (normAbs ((if p.head? = some '/' then [] else segsOf cwd) ++ segsOf p))

/-- `GitService._determine_repo_path`: a `local` configuration with a path
resolves that path; anything else derives `str(Path(GIT_PROJECTS_ROOT) / id)`. -/
def determineRepoPath (cfg : GitCfg) (root cwd pid : Str) : Str :=
  if cfg.ctype = some ("local".toList) ∧ cfg.cpath ≠ none ∧ cfg.cpath ≠ some [] then
    resolveStr cwd (cfg.cpath.getD [])
  else
    (if root.head? = some '/' then ['/'] else []) ++
      List.intercalate ['/'] (segsOf root) ++ '/' :: pid

/-- Python's substring test `needle in hay`. -/
def strInfixOf (needle : Str) : Str → Bool
  | [] => needle.isEmpty
  | c :: rest => needle.isPrefixOf (c :: rest) || strInfixOf needle rest

/-- The absolute segment form of a repo path string, for filesystem access. -/
def repoAbsSegs (cwd repo : Str) : List Str :=
  normAbs ((if repo.head? = some '/' then [] else segsOf cwd) ++ segsOf repo)

/-- `GitService.delete_project_repository`: skip when the path does not exist;
delete recursively when `GIT_PROJECTS_ROOT in repo_path` (a substring test) or
the configured path string equals the repo path; otherwise refuse.  Returns
the new tree and whether a deletion was performed. -/
def deleteProjectRepository (t : Tree) (cfg : GitCfg) (root cwd pid : Str) : Tree × Bool :=
  let repo := determineRepoPath cfg root cwd pid
  let segs := repoAbsSegs cwd repo
  match t.lookup segs with
  | none => (t, false)
  | some _ =>
    if strInfixOf root repo ∨ cfg.cpath = some repo then (t.removePath segs, true)
    else (t, false)

/-- The containment relation the specification describes: the resolved repo
path lies inside (or at) the resolved default projects root. -/
def pathInside (cwd root repo : Str) : Bool :=
  (normAbs (segsOf (resolveStr cwd root))).isPrefixOf (repoAbsSegs cwd repo)

/-! ## Concrete instances used by the claim theorems and witnesses -/

/-- A filesystem with a project root two levels deep and a sensitive file
outside it. -/
def tC1 : Tree := .dir [
  ("etc".toList, .dir [("passwd".toList, .file "secret".toList)]),
  ("home".toList, .dir [("proj".toList, .dir [("a.md".toList, .file "x".toList)])])]

/-- The project root of `tC1`. -/
def projC1 : List Str := ["home".toList, "proj".toList]

/-- The traversal path of the specification's example. -/
def evilPath : Path := ["..".toList, "..".toList, "etc".toList, "passwd".toList]

/-- A representable metadata map exercising scalars, a list and an empty
list. -/
def mC2 : Meta :=
  [("id".toList, .s "nodeAAA".toList), ("title".toList, .s "Hello".toList),
   ("links".toList, .arr ["aone".toList, "btwo".toList]), ("tags".toList, .arr [])]

/-- A body string that itself contains dashes and a `---` line. -/
def bC2 : Str := "Body --- \n---\nmore".toList

/-- A project containing a non-structured file with a sidecar. -/
def tC6 : Tree := .dir [("p".toList, .dir [
  ("data.bin".toList, .file "BYTES".toList),
  ("data.bin.metadata.md".toList, .file "m".toList)])]

/-- Project root of `tC6`. -/
def projC6 : List Str := ["p".toList]

/-- The node deleted in the C6 witness. -/
def pathC6 : Path := ["data.bin".toList]

/-- `tC6` after `delete("data.bin")`: both the file and the sidecar gone. -/
def tC6' : Tree := .dir [("p".toList, .dir [])]

/-- A non-markdown node whose sidecar's front matter carries a scalar `task`
value: the source's `read_node` raises `AttributeError` on it. -/
def tC9x : Tree := .dir [("p".toList, .dir [
  ("data.bin".toList, .file "BYTES".toList),
  ("data.bin.metadata.md".toList, .file ("---\ntask: x\n---\n".toList))])]

/-- Persisted sidecar metadata for the amended-C9 witness: representable and
`task`-free. -/
def mC9s : Meta := [("color".toList, .s ("blue".toList))]

/-- A non-markdown node with a well-formed, `task`-free sidecar. -/
def tC9w : Tree := .dir [("p".toList, .dir [
  ("data.bin".toList, .file "BYTES".toList),
  ("data.bin.metadata.md".toList, .file (stringifyMarkdownWithFrontmatter mC9s []))])]

/-- The project state after `create("", "   ", "file")` on an empty project:
the hidden file `.md` silently appears. -/
def tC3' : Tree := .dir [("p".toList, .dir [(".md".toList,
  .file ("---\nid: oidE\ntitle: \ntype: file\ncreated: nowE\nmodified: nowE\n---\n# \n\n".toList))])]

/-- A project with a root-level `templates` directory and another directory
named `templates` nested under `sub/`. -/
def tC5 : Tree := .dir [("p".toList, .dir [
  ("sub".toList, .dir [("templates".toList, .dir [("x.md".toList, .file "hi".toList)])]),
  ("templates".toList, .dir [("t.md".toList, .file "tt".toList)])])]

/-- Project root of `tC5`. -/
def projC5 : List Str := ["p".toList]

/-- Repository configuration whose local path resolves elsewhere than its
literal text. -/
def cfgC8 : GitCfg := ⟨some ("local".toList), some ("/home/user/x/../srv/repos-evil".toList)⟩

/-- The configured default projects root for the C8 scenario. -/
def rootC8 : Str := "/srv/repos".toList

/-- A filesystem holding both the default projects root and a directory
outside it whose path happens to contain the root's text. -/
def tC8 : Tree := .dir [
  ("home".toList, .dir [("user".toList, .dir [("srv".toList, .dir [
    ("repos-evil".toList, .dir [("f.md".toList, .file "x".toList)])])])]),
  ("srv".toList, .dir [("repos".toList, .dir [])])]

/-- An empty project for the template-idempotence witness. -/
def tC7 : Tree := .dir [("p".toList, .dir [])]

/-- `tC7` after the first `ensureDefaultTemplate` call (synthesizing branch,
clock reading `NOWa`). -/
def tC7' : Tree := .dir [("p".toList, .dir [("templates".toList, .dir [
  ("Empty.md".toList, .file (emptyTemplateFallback ("NOWa".toList)))])])]

/-- A line `yaml.dump` may emit: nonempty, newline-free, and not the
document delimiter `---`. -/
def goodLine (l : Str) : Prop := l ≠ [] ∧ '\n' ∉ l ∧ l ≠ ['-', '-', '-']

theorem splitOnSep_exact (a b : Str)
    (h : ∀ i, i < a.length → ((a ++ sepChars ++ b).drop i).take 5 ≠ sepChars) :
    splitOnSep (a ++ sepChars ++ b) = some (a, b) := by
  induction a with
  | nil =>
    simp only [List.nil_append, sepChars, List.cons_append, splitOnSep]
    simp [List.take_succ_cons, List.drop_succ_cons]
  | cons c a ih =>
    have h0 : ((c :: a) ++ sepChars ++ b).take 5 ≠ sepChars := by
      have := h 0 (by simp)
      simpa using this
    have h' : ∀ i, i < a.length → ((a ++ sepChars ++ b).drop i).take 5 ≠ sepChars := by
      intro i hi
      have := h (i + 1) (by simp; omega)
      simpa [List.drop_succ_cons] using this
    simp only [List.cons_append, splitOnSep]
    rw [if_neg (by simpa using h0)]
    have hih := ih h'
    simp only [List.append_eq] at hih ⊢
    rw [hih]

theorem window_in_line (l r : Str) (h2 : '\n' ∉ l) (i : Nat) (hi : i < l.length) :
    (((l ++ r)).drop i).take 5 ≠ sepChars := by
  intro hEq
  have hhead : ((l ++ r).drop i).head? = some '\n' := by
    cases hD : (l ++ r).drop i with
    | nil => rw [hD] at hEq; simp [sepChars] at hEq
    | cons d D' =>
      rw [hD] at hEq
      simp only [List.take_succ_cons, sepChars, List.cons.injEq] at hEq
      simp [hD, hEq.1]
  rw [List.head?_drop, List.getElem?_append_left hi] at hhead
  exact h2 (List.getElem?_mem hhead)

theorem take4_after_line (l c : Str) (h1 : l ≠ ['-', '-', '-']) (h2 : '\n' ∉ l)
    (hc : c.head? = some '\n') : ((l ++ c).take 4) ≠ ['-', '-', '-', '\n'] := by
  obtain ⟨c', rfl⟩ : ∃ c', c = '\n' :: c' := by
    cases c with
    | nil => simp at hc
    | cons x xs => simp only [List.head?_cons, Option.some.injEq] at hc; exact ⟨xs, by rw [hc]⟩
  rcases l with _ | ⟨x, _ | ⟨y, _ | ⟨z, _ | ⟨w, rest⟩⟩⟩⟩ <;>
    intro hEq <;>
    simp only [List.nil_append, List.cons_append, List.take_succ_cons, List.take_zero,
      List.cons.injEq, and_true] at hEq
  · exact absurd hEq.1 (by decide)
  · exact absurd hEq.2.1 (by decide)
  · exact absurd hEq.2.2.1 (by decide)
  · exact h1 (by rw [hEq.1, hEq.2.1, hEq.2.2])
  · have hw := hEq.2.2.2
    subst hw
    exact h2 (by simp)

theorem joined_no_early_sep (ls : List Str) (b : Str) (hg : ∀ l ∈ ls, goodLine l) :
    ∀ i, i < (joinLines ls).length →
      ((joinLines ls ++ sepChars ++ b).drop i).take 5 ≠ sepChars := by
  induction ls with
  | nil => intro i hi; simp [joinLines] at hi
  | cons l ls ih =>
    intro i hi
    cases ls with
    | nil =>
      simp only [joinLines] at hi ⊢
      rw [List.append_assoc]
      exact window_in_line l (sepChars ++ b) (hg l (by simp)).2.1 i hi
    | cons l' ls' =>
      have hJ : joinLines (l :: l' :: ls') = l ++ '\n' :: joinLines (l' :: ls') := rfl
      rw [hJ] at hi ⊢
      have hX : (l ++ '\n' :: joinLines (l' :: ls')) ++ sepChars ++ b =
          l ++ '\n' :: (joinLines (l' :: ls') ++ sepChars ++ b) := by
        simp [List.append_assoc]
      rw [hX]
      rcases lt_trichotomy i l.length with hlt | heq | hgt
      · exact window_in_line l ('\n' :: (joinLines (l' :: ls') ++ sepChars ++ b))
          (hg l (by simp)).2.1 i hlt
      · subst heq
        rw [List.drop_left]
        intro hEq
        have h4 : (joinLines (l' :: ls') ++ sepChars ++ b).take 4 = ['-', '-', '-', '\n'] := by
          simpa [sepChars, List.take_succ_cons] using hEq
        exact absurd h4 (by
          have hgl' : goodLine l' := hg l' (by simp)
          cases ls' with
          | nil =>
            have : joinLines [l'] ++ sepChars ++ b = l' ++ (sepChars ++ b) := by
              simp [joinLines, List.append_assoc]
            rw [this]
            exact take4_after_line l' (sepChars ++ b) hgl'.2.2 hgl'.2.1 (by simp [sepChars])
          | cons l'' ls'' =>
            have : joinLines (l' :: l'' :: ls'') ++ sepChars ++ b =
                l' ++ ('\n' :: (joinLines (l'' :: ls'') ++ sepChars ++ b)) := by
              simp [joinLines, List.append_assoc]
            rw [this]
            exact take4_after_line l' _ hgl'.2.2 hgl'.2.1 (by simp))
      · have hlen : i = l.length + 1 + (i - l.length - 1) := by omega
        rw [hlen]
        have hdrop : (l ++ '\n' :: (joinLines (l' :: ls') ++ sepChars ++ b)).drop
            (l.length + 1 + (i - l.length - 1)) =
            (joinLines (l' :: ls') ++ sepChars ++ b).drop (i - l.length - 1) := by
          rw [show l.length + 1 + (i - l.length - 1) = (l ++ ['\n']).length + (i - l.length - 1)
            by simp]
          rw [show l ++ '\n' :: (joinLines (l' :: ls') ++ sepChars ++ b) =
            (l ++ ['\n']) ++ (joinLines (l' :: ls') ++ sepChars ++ b) by simp]
          rw [List.drop_append]
        rw [hdrop]
        apply ih (fun x hx => hg x (by simp [hx]))
        simp only [List.length_append, List.length_cons] at hi
        omega

theorem plainScalar_spec (s : Str) (h : plainScalar s = true) :
    ∃ c cs, s = c :: cs ∧ c.isAlpha = true ∧ ∀ x ∈ s, plainChar x = true := by
  match s with
  | [] => simp [plainScalar] at h
  | c :: cs =>
    simp only [plainScalar, Bool.and_eq_true, List.all_eq_true] at h
    exact ⟨c, cs, rfl, h.1.1, fun x hx => h.1.2 x hx⟩

theorem plainChar_ne_nl {c : Char} (h : plainChar c = true) : c ≠ '\n' := by
  intro hEq; subst hEq; simp [plainChar] at h

theorem plainChar_ne_colon {c : Char} (h : plainChar c = true) : c ≠ ':' := by
  intro hEq; subst hEq; simp [plainChar] at h

theorem isAlpha_ne_dash {c : Char} (h : c.isAlpha = true) : c ≠ '-' := by
  intro hEq; subst hEq; simp at h

theorem reprMeta_cons {k : Str} {v : YVal} {r : Meta} (h : reprMeta ((k, v) :: r) = true) :
    plainScalar k = true ∧ reprVal v = true ∧ reprMeta r = true := by
  simp only [reprMeta, List.all_cons, nodupKeys, Bool.and_eq_true] at h
  refine ⟨h.1.1.1, h.1.1.2, ?_⟩
  simp only [reprMeta, Bool.and_eq_true]
  exact ⟨h.1.2, h.2.2⟩

theorem head_ne_dash_of_plain {k : Str} (hk : plainScalar k = true) (suf : Str) :
    k ++ suf ≠ ['-', '-', '-'] := by
  obtain ⟨c, cs, rfl, hca, _⟩ := plainScalar_spec k hk
  intro hEq
  have hc : c = '-' := by
    have := congrArg (fun l => l.head?) hEq
    simpa using this
  exact isAlpha_ne_dash hca hc

theorem goodLine_of_plain_line {k : Str} (hk : plainScalar k = true) (suf : Str)
    (hsuf : '\n' ∉ suf) : goodLine (k ++ suf) := by
  obtain ⟨c, cs, hks, _, hall⟩ := plainScalar_spec k hk
  refine ⟨?_, ?_, head_ne_dash_of_plain hk suf⟩
  · rw [hks]; simp
  · intro hmem
    rcases List.mem_append.mp hmem with hl | hr
    · exact plainChar_ne_nl (hall _ hl) rfl
    · exact hsuf hr

theorem goodLine_item {e : Str} (he : plainScalar e = true) : goodLine ('-' :: ' ' :: e) := by
  obtain ⟨c, cs, rfl, _, hall⟩ := plainScalar_spec e he
  refine ⟨by simp, ?_, by simp⟩
  intro hmem
  simp only [List.mem_cons] at hmem
  rcases hmem with h1 | h2 | h3 | hmem
  · exact absurd h1 (by decide)
  · exact absurd h2 (by decide)
  · exact plainChar_ne_nl (hall c (by simp)) h3.symm
  · exact plainChar_ne_nl (hall _ (List.mem_cons_of_mem c hmem)) rfl

theorem entryLines_good {k : Str} {v : YVal} (hk : plainScalar k = true)
    (hv : reprVal v = true) : ∀ l ∈ entryLines (k, v), goodLine l := by
  intro l hl
  match v with
  | .s val =>
    simp only [entryLines, List.mem_singleton] at hl
    subst hl
    obtain ⟨c, cs, rfl, _, hall⟩ := plainScalar_spec val hv
    refine goodLine_of_plain_line hk _ ?_
    intro hmem
    simp only [List.mem_cons] at hmem
    rcases hmem with h1 | h2 | h3 | hmem
    · exact absurd h1 (by decide)
    · exact absurd h2 (by decide)
    · exact plainChar_ne_nl (hall c (by simp)) h3.symm
    · exact plainChar_ne_nl (hall _ (List.mem_cons_of_mem c hmem)) rfl
  | .arr [] =>
    simp only [entryLines, List.mem_singleton] at hl
    subst hl
    exact goodLine_of_plain_line hk _ (by decide)
  | .arr (e :: es) =>
    simp only [entryLines, List.mem_cons] at hl
    rcases hl with rfl | hl
    · exact goodLine_of_plain_line hk [':'] (by decide)
    · simp only [reprVal, List.all_eq_true] at hv
      obtain ⟨x, hx, rfl⟩ := List.mem_map.mp hl
      exact goodLine_item (hv x hx)

theorem dumpLines_good (m : Meta) (h : reprMeta m = true) :
    ∀ l ∈ dumpLines m, goodLine l := by
  intro l hl
  by_cases hm : m = []
  · subst hm
    have he : dumpLines ([] : Meta) = [['{', '}']] := rfl
    rw [he, List.mem_singleton] at hl
    subst hl
    exact ⟨by decide, by decide, by decide⟩
  · simp only [dumpLines, if_neg hm] at hl
    obtain ⟨ls', hls', hmem⟩ := List.mem_flatten.mp hl
    obtain ⟨⟨k, v⟩, hkv, rfl⟩ := List.mem_map.mp hls'
    have hplain : plainScalar k = true ∧ reprVal v = true := by
      simp only [reprMeta, List.all_eq_true, Bool.and_eq_true] at h
      exact ⟨(h.1 _ hkv).1, (h.1 _ hkv).2⟩
    exact entryLines_good hplain.1 hplain.2 l hmem

theorem splitLines_single (l : Str) (h : '\n' ∉ l) : splitLines l = [l] := by
  induction l with
  | nil => rfl
  | cons c r ih =>
    have hc : c ≠ '\n' := fun hEq => h (hEq ▸ List.mem_cons_self c r)
    have hr : '\n' ∉ r := fun hm => h (List.mem_cons_of_mem c hm)
    simp only [splitLines, if_neg hc, ih hr]

theorem splitLines_append (l r : Str) (h : '\n' ∉ l) :
    splitLines (l ++ '\n' :: r) = l :: splitLines r := by
  induction l with
  | nil => simp [splitLines]
  | cons c l' ih =>
    have hc : c ≠ '\n' := fun hEq => h (hEq ▸ List.mem_cons_self c l')
    have hl' : '\n' ∉ l' := fun hm => h (List.mem_cons_of_mem c hm)
    simp only [List.cons_append, splitLines, if_neg hc]
    simp only [List.append_eq]
    rw [ih hl']

theorem splitLines_joinLines (ls : List Str) (h : ∀ l ∈ ls, '\n' ∉ l) (hne : ls ≠ []) :
    splitLines (joinLines ls) = ls := by
  induction ls with
  | nil => exact absurd rfl hne
  | cons l ls ih =>
    cases ls with
    | nil => exact splitLines_single l (h l (by simp))
    | cons l' ls' =>
      have hJ : joinLines (l :: l' :: ls') = l ++ '\n' :: joinLines (l' :: ls') := rfl
      rw [hJ, splitLines_append l _ (h l (by simp)), ih (fun x hx => h x (by simp [hx])) (by simp)]

theorem lineSplit_append (k rest : Str) (h : ∀ c ∈ k, c ≠ ':') :
    lineSplit (k ++ ':' :: rest) = (k, ':' :: rest) := by
  induction k with
  | nil => simp [lineSplit]
  | cons c k' ih =>
    have hc : c ≠ ':' := h c (by simp)
    have hk' : ∀ c ∈ k', c ≠ ':' := fun x hx => h x (by simp [hx])
    simp only [List.cons_append, lineSplit, if_neg hc]
    simp only [List.append_eq]
    rw [ih hk']

theorem takeWhile_nil_of_head {p : Str → Bool} (ys : List Str)
    (hhd : ∀ y, ys.head? = some y → p y = false) :
    ys.takeWhile p = [] ∧ ys.dropWhile p = ys := by
  cases ys with
  | nil => simp
  | cons y ys' =>
    have := hhd y rfl
    simp [List.takeWhile_cons, List.dropWhile_cons, this]

theorem takeWhile_all_append {p : Str → Bool} (xs ys : List Str)
    (hall : ∀ x ∈ xs, p x = true) (hhd : ∀ y, ys.head? = some y → p y = false) :
    (xs ++ ys).takeWhile p = xs ∧ (xs ++ ys).dropWhile p = ys := by
  induction xs with
  | nil =>
    cases ys with
    | nil => simp
    | cons y ys' =>
      have := hhd y rfl
      simp [List.takeWhile_cons, List.dropWhile_cons, this]
  | cons x xs' ih =>
    have hx := hall x (by simp)
    have hih := ih (fun a ha => hall a (by simp [ha]))
    simp only [List.cons_append, List.takeWhile_cons, List.dropWhile_cons, hx]
    simp [hih.1, hih.2]

/-- The lines of a dumped metadata map, entry by entry (the `m ≠ []` branch of
`dumpLines`). -/
def flatLines (m : Meta) : List Str := (m.map entryLines).flatten

theorem plain_ne_brackets {v : Str} (hv : plainScalar v = true) : v ≠ "[]".toList := by
  intro hEq
  rw [hEq] at hv
  simp [plainScalar, reservedWords] at hv

theorem plain_no_colon {k : Str} (hk : plainScalar k = true) : ∀ c ∈ k, c ≠ ':' := by
  obtain ⟨c, cs, rfl, _, hall⟩ := plainScalar_spec k hk
  exact fun x hx => plainChar_ne_colon (hall x hx)

theorem flatLines_head_not_item (m : Meta) (h : reprMeta m = true) :
    ∀ l, (flatLines m).head? = some l → isItemLine l = false := by
  intro l hl
  match m with
  | [] => simp [flatLines] at hl
  | (k, v) :: rest =>
    obtain ⟨hk, hv, _⟩ := reprMeta_cons h
    obtain ⟨c, cs, hkc, hca, _⟩ := plainScalar_spec k hk
    have hshape : ∃ tail, l = c :: tail := by
      match v with
      | .s val =>
        have : flatLines ((k, .s val) :: rest) = (k ++ ':' :: ' ' :: val) :: flatLines rest := by
          simp [flatLines, entryLines]
        rw [this] at hl
        simp only [List.head?_cons, Option.some.injEq] at hl
        exact ⟨cs ++ ':' :: ' ' :: val, by rw [← hl, hkc]; simp⟩
      | .arr [] =>
        have : flatLines ((k, .arr []) :: rest) = (k ++ ": []".toList) :: flatLines rest := by
          simp [flatLines, entryLines]
        rw [this] at hl
        simp only [List.head?_cons, Option.some.injEq] at hl
        exact ⟨cs ++ ": []".toList, by rw [← hl, hkc]; simp⟩
      | .arr (e :: es) =>
        have : flatLines ((k, .arr (e :: es)) :: rest) =
            (k ++ [':']) :: (((e :: es).map (fun x => '-' :: ' ' :: x)) ++ flatLines rest) := by
          simp [flatLines, entryLines]
        rw [this] at hl
        simp only [List.head?_cons, Option.some.injEq] at hl
        exact ⟨cs ++ [':'], by rw [← hl, hkc]; simp⟩
    obtain ⟨tail, rfl⟩ := hshape
    simp only [isItemLine, decide_eq_false_iff_not]
    intro hEq
    have hcd : c = '-' := by
      have := congrArg (fun x => x.head?) hEq
      simpa [List.take_succ_cons] using this
    exact isAlpha_ne_dash hca hcd

theorem parseLinesMeta_flat (m : Meta) (h : reprMeta m = true) :
    parseLinesMeta (flatLines m) = some m := by
  induction m with
  | nil =>
    rw [show flatLines ([] : Meta) = [] from rfl]
    simp [parseLinesMeta]
  | cons kv rest ih =>
    obtain ⟨k, v⟩ := kv
    obtain ⟨hk, hv, hrest⟩ := reprMeta_cons h
    have hkcol := plain_no_colon hk
    match v with
    | .s val =>
      have hfl : flatLines ((k, .s val) :: rest) = (k ++ ':' :: ' ' :: val) :: flatLines rest := by
        simp [flatLines, entryLines]
      rw [hfl]
      simp only [parseLinesMeta]
      rw [lineSplit_append k (' ' :: val) hkcol]
      simp [ih hrest]
      exact plain_ne_brackets hv
    | .arr [] =>
      have hfl : flatLines ((k, .arr []) :: rest) =
          (k ++ ':' :: ' ' :: "[]".toList) :: flatLines rest := by
        simp [flatLines, entryLines]
      rw [hfl]
      simp only [parseLinesMeta]
      rw [lineSplit_append k (' ' :: "[]".toList) hkcol]
      simp [ih hrest]
    | .arr (e :: es) =>
      have hfl : flatLines ((k, .arr (e :: es)) :: rest) =
          (k ++ [':']) :: (((e :: es).map (fun x => '-' :: ' ' :: x)) ++ flatLines rest) := by
        simp [flatLines, entryLines]
      have h0 := takeWhile_nil_of_head (p := isItemLine) (flatLines rest)
        (flatLines_head_not_item rest hrest)
      rw [hfl]
      simp only [parseLinesMeta]
      rw [lineSplit_append k [] hkcol]
      have hmap : ∀ xs : List Str,
          List.map ((fun l' => List.drop 2 l') ∘ fun x => '-' :: ' ' :: x) xs = xs := by
        intro xs
        induction xs with
        | nil => rfl
        | cons y ys ihy => simp [Function.comp, ihy]
      simp [h0.1, h0.2, ih hrest, List.map_map, Function.comp, List.drop_succ_cons,
        isItemLine, List.take_succ_cons, hmap]

theorem joinLines_head (x : Str) (ls : List Str) : ∃ r, joinLines (x :: ls) = x ++ r := by
  cases ls with
  | nil => exact ⟨[], by simp [joinLines]⟩
  | cons y t => exact ⟨'\n' :: joinLines (y :: t), rfl⟩

theorem flatLines_shape (m : Meta) (h : reprMeta m = true) (hm : m ≠ []) :
    ∃ c lrest ls, flatLines m = (c :: lrest) :: ls ∧ c.isAlpha = true := by
  match m with
  | [] => exact absurd rfl hm
  | (k, v) :: rest =>
    obtain ⟨hk, _, _⟩ := reprMeta_cons h
    obtain ⟨c, cs, rfl, hca, _⟩ := plainScalar_spec k hk
    match v with
    | .s val =>
      exact ⟨c, cs ++ ':' :: ' ' :: val, flatLines rest, by simp [flatLines, entryLines], hca⟩
    | .arr [] =>
      exact ⟨c, cs ++ ": []".toList, flatLines rest, by simp [flatLines, entryLines], hca⟩
    | .arr (e :: es) =>
      exact ⟨c, cs ++ [':'],
        ((e :: es).map (fun x => '-' :: ' ' :: x)) ++ flatLines rest,
        by simp [flatLines, entryLines], hca⟩

theorem yamlLoad_dump (m : Meta) (h : reprMeta m = true) :
    yamlLoad (joinLines (dumpLines m)) = some m := by
  by_cases hm : m = []
  · subst hm
    rfl
  · have hd : dumpLines m = flatLines m := by simp [dumpLines, flatLines, if_neg hm]
    obtain ⟨c, lrest, ls, hfl, hca⟩ := flatLines_shape m h hm
    have hnl : ∀ l ∈ flatLines m, '\n' ∉ l := by
      intro l hl
      exact ((dumpLines_good m h) l (by rw [hd]; exact hl)).2.1
    have hjoin : splitLines (joinLines (flatLines m)) = flatLines m :=
      splitLines_joinLines _ hnl (by rw [hfl]; simp)
    rw [hd]
    obtain ⟨r, hr⟩ := joinLines_head (c :: lrest) ls
    rw [← hfl] at hr
    unfold yamlLoad
    rw [if_neg (by rw [hr]; simp)]
    rw [if_neg (by
      rw [hr]
      intro hEq
      have : c = '{' := by
        have := congrArg (fun l => l.head?) hEq
        simpa using this
      subst this
      simp at hca)]
    rw [hjoin]
    exact parseLinesMeta_flat m h

/-- `decode(encode(m, b)) = (m, b)` on the representable fragment — the codec
round trip of the specification. -/
theorem parse_stringify_roundtrip (m : Meta) (b : Str) (h : reprMeta m = true) :
    parseMarkdownWithFrontmatter (stringifyMarkdownWithFrontmatter m b) = (m, b) := by
  have hshape : stringifyMarkdownWithFrontmatter m b =
      "---\n".toList ++ (joinLines (dumpLines m) ++ (sepChars ++ b)) := by
    simp [stringifyMarkdownWithFrontmatter, yamlDump, sepChars, List.append_assoc]
  rw [hshape]
  have hsplit : splitOnSep (joinLines (dumpLines m) ++ sepChars ++ b) =
      some (joinLines (dumpLines m), b) :=
    splitOnSep_exact _ b (joined_no_early_sep (dumpLines m) b (dumpLines_good m h))
  rw [List.append_assoc] at hsplit
  unfold parseMarkdownWithFrontmatter
  rw [if_pos (by rfl)]
  have hdrop : ("---\n".toList ++ (joinLines (dumpLines m) ++ (sepChars ++ b))).drop 4 =
      joinLines (dumpLines m) ++ (sepChars ++ b) := rfl
  rw [hdrop, hsplit]
  simp only [yamlLoad_dump m h]

/-! ## Filesystem lemmas -/

theorem assocFind_set_self (cs : List (Str × Tree)) (s : Str) (t : Tree) :
    assocFind (assocSet cs s t) s = some t := by
  induction cs with
  | nil => simp [assocSet, assocFind]
  | cons p rest ih =>
    obtain ⟨n, t'⟩ := p
    by_cases hn : n = s
    · subst hn; simp [assocSet, assocFind]
    · simp [assocSet, assocFind, hn, ih]

theorem assocFind_set_other (cs : List (Str × Tree)) (s u : Str) (t : Tree) (h : u ≠ s) :
    assocFind (assocSet cs s t) u = assocFind cs u := by
  have hsu : s ≠ u := fun hEq => h hEq.symm
  induction cs with
  | nil => simp [assocSet, assocFind, hsu]
  | cons p rest ih =>
    obtain ⟨n, t'⟩ := p
    by_cases hn : n = s
    · subst hn
      simp only [assocSet, if_pos rfl, assocFind]
      rw [if_neg hsu, if_neg hsu]
    · simp [assocSet, assocFind, hn, ih]

theorem assocFind_remove_self (cs : List (Str × Tree)) (s : Str) :
    assocFind (assocRemove cs s) s = none := by
  induction cs with
  | nil => rfl
  | cons p rest ih =>
    obtain ⟨n, t'⟩ := p
    simp only [assocRemove, decide_not] at ih ⊢
    by_cases hn : n = s
    · subst hn
      simpa [List.filter_cons] using ih
    · simp [List.filter_cons, hn, assocFind, ih]

theorem assocFind_remove_other (cs : List (Str × Tree)) (s u : Str) (h : u ≠ s) :
    assocFind (assocRemove cs s) u = assocFind cs u := by
  induction cs with
  | nil => rfl
  | cons p rest ih =>
    obtain ⟨n, t'⟩ := p
    simp only [assocRemove, decide_not] at ih ⊢
    by_cases hn : n = s
    · subst hn
      simp [List.filter_cons, assocFind, Ne.symm h, ih]
    · by_cases hu : n = u
      · subst hu
        simp [List.filter_cons, hn, assocFind]
      · simp [List.filter_cons, hn, hu, assocFind, ih]

theorem assocSet_find_self (cs : List (Str × Tree)) (s : Str) (c : Tree)
    (h : assocFind cs s = some c) : assocSet cs s c = cs := by
  induction cs with
  | nil => simp [assocFind] at h
  | cons p rest ih =>
    obtain ⟨n, t'⟩ := p
    by_cases hn : n = s
    · subst hn
      simp [assocFind] at h
      simp [assocSet, h]
    · simp only [assocFind, if_neg hn] at h
      simp [assocSet, hn, ih h]

theorem lookup_append (t : Tree) (p q : List Str) :
    t.lookup (p ++ q) = (t.lookup p).bind (fun s => s.lookup q) := by
  induction p generalizing t with
  | nil => simp [Tree.lookup]
  | cons s p' ih =>
    cases t with
    | file c => simp [Tree.lookup]
    | dir cs =>
      simp only [List.cons_append, Tree.lookup]
      cases assocFind cs s with
      | none => simp
      | some child => simp [ih child]

theorem writeFile_some_of_lookup_file (p : List Str) (t : Tree) (c c' : Str)
    (hp : p ≠ []) (h : t.lookup p = some (.file c)) :
    ∃ t', t.writeFile p c' = some t' := by
  induction p generalizing t with
  | nil => exact absurd rfl hp
  | cons s p' ih =>
    cases t with
    | file c0 => simp [Tree.lookup] at h
    | dir cs =>
      simp only [Tree.lookup] at h
      cases hf : assocFind cs s with
      | none => rw [hf] at h; simp at h
      | some child =>
        rw [hf] at h
        simp only [] at h
        cases p' with
        | nil =>
          simp only [Tree.lookup, Option.some.injEq] at h
          subst h
          refine ⟨.dir (assocSet cs s (.file c')), ?_⟩
          simp only [Tree.writeFile, hf]
        | cons r rest =>
          obtain ⟨child', hw⟩ := ih child (by simp) h
          exact ⟨.dir (assocSet cs s child'), by simp only [Tree.writeFile, hf, hw]⟩

theorem lookup_writeFile_self (p : List Str) (t t' : Tree) (c : Str)
    (h : t.writeFile p c = some t') : t'.lookup p = some (.file c) := by
  induction p generalizing t t' with
  | nil => simp [Tree.writeFile] at h
  | cons s p' ih =>
    cases t with
    | file c0 => simp [Tree.writeFile] at h
    | dir cs =>
      cases p' with
      | nil =>
        simp only [Tree.writeFile] at h
        cases hf : assocFind cs s with
        | none =>
          rw [hf] at h
          simp only [] at h
          simp only [Option.some.injEq] at h
          subst h
          simp [Tree.lookup, assocFind_set_self]
        | some child =>
          rw [hf] at h
          cases child with
          | dir cs' => simp at h
          | file c0 =>
            simp only [Option.some.injEq] at h
            subst h
            simp [Tree.lookup, assocFind_set_self]
      | cons r rest =>
        simp only [Tree.writeFile] at h
        cases hf : assocFind cs s with
        | none => rw [hf] at h; simp at h
        | some child =>
          rw [hf] at h
          simp only [] at h
          cases hw : child.writeFile (r :: rest) c with
          | none => rw [hw] at h; simp at h
          | some child' =>
            rw [hw] at h
            simp only [] at h
            simp only [Option.some.injEq] at h
            subst h
            simp only [Tree.lookup, assocFind_set_self]
            exact ih child child' hw

theorem writeFile_shape (s : Str) (p' : List Str) (cs : List (Str × Tree)) (c : Str)
    (t' : Tree) (h : (Tree.dir cs).writeFile (s :: p') c = some t') :
    ∃ X, t' = .dir (assocSet cs s X) := by
  cases p' with
  | nil =>
    simp only [Tree.writeFile] at h
    cases hf : assocFind cs s with
    | none =>
      rw [hf] at h
      simp only [] at h
      simp only [Option.some.injEq] at h
      exact ⟨_, h.symm⟩
    | some child =>
      rw [hf] at h
      cases child with
      | dir cs' => simp at h
      | file c0 =>
        simp only [Option.some.injEq] at h
        exact ⟨_, h.symm⟩
  | cons r rest =>
    simp only [Tree.writeFile] at h
    cases hf : assocFind cs s with
    | none => rw [hf] at h; simp at h
    | some child =>
      rw [hf] at h
      simp only [] at h
      cases hw : child.writeFile (r :: rest) c with
      | none => rw [hw] at h; simp at h
      | some child' =>
        rw [hw] at h
        simp only [Option.some.injEq] at h
        exact ⟨_, h.symm⟩

theorem lookup_writeFile_file_other (p q : List Str) (t t' : Tree) (c cq : Str)
    (h : t.writeFile p c = some t') (hq : t.lookup q = some (.file cq)) (hne : q ≠ p) :
    t'.lookup q = some (.file cq) := by
  induction p generalizing t t' q with
  | nil => simp [Tree.writeFile] at h
  | cons s p' ih =>
    cases t with
    | file c0 => simp [Tree.writeFile] at h
    | dir cs =>
      cases q with
      | nil => simp [Tree.lookup] at hq
      | cons u q' =>
        simp only [Tree.lookup] at hq
        cases hfu : assocFind cs u with
        | none => rw [hfu] at hq; simp at hq
        | some childu =>
          rw [hfu] at hq
          simp only [] at hq
          by_cases hus : u = s
          · subst hus
            cases p' with
            | nil =>
              simp only [Tree.writeFile] at h
              rw [hfu] at h
              cases childu with
              | dir cs' => simp at h
              | file c0 =>
                cases q' with
                | nil =>
                  simp only [Tree.lookup, Option.some.injEq] at hq
                  exact absurd rfl hne
                | cons w q'' => simp [Tree.lookup] at hq
            | cons r rest =>
              simp only [Tree.writeFile] at h
              rw [hfu] at h
              simp only [] at h
              cases hw : childu.writeFile (r :: rest) c with
              | none => rw [hw] at h; simp at h
              | some child' =>
                rw [hw] at h
                simp only [Option.some.injEq] at h
                subst h
                simp only [Tree.lookup, assocFind_set_self]
                cases q' with
                | nil =>
                  simp only [Tree.lookup, Option.some.injEq] at hq
                  rw [hq] at hw
                  simp [Tree.writeFile] at hw
                | cons w q'' =>
                  refine ih (w :: q'') childu child' hw hq ?_
                  intro hEq
                  exact hne (by rw [hEq])
          · obtain ⟨X, rfl⟩ := writeFile_shape s p' cs c t' h
            simp only [Tree.lookup, assocFind_set_other cs s u X hus, hfu]
            exact hq

theorem lookup_writeFile_dir_pres (p q : List Str) (t t' : Tree) (c : Str)
    (h : t.writeFile p c = some t') (hq : ∃ ds, t.lookup q = some (.dir ds)) :
    ∃ ds', t'.lookup q = some (.dir ds') := by
  induction p generalizing t t' q with
  | nil => simp [Tree.writeFile] at h
  | cons s p' ih =>
    obtain ⟨ds, hq⟩ := hq
    cases t with
    | file c0 => simp [Tree.writeFile] at h
    | dir cs =>
      cases q with
      | nil =>
        obtain ⟨X, rfl⟩ := writeFile_shape s p' cs c t' h
        exact ⟨_, rfl⟩
      | cons u q' =>
        simp only [Tree.lookup] at hq
        cases hfu : assocFind cs u with
        | none => rw [hfu] at hq; simp at hq
        | some childu =>
          rw [hfu] at hq
          simp only [] at hq
          by_cases hus : u = s
          · subst hus
            cases p' with
            | nil =>
              simp only [Tree.writeFile] at h
              rw [hfu] at h
              cases childu with
              | dir cs' => simp at h
              | file c0 =>
                cases q' with
                | nil => simp [Tree.lookup] at hq
                | cons w q'' => simp [Tree.lookup] at hq
            | cons r rest =>
              simp only [Tree.writeFile] at h
              rw [hfu] at h
              simp only [] at h
              cases hw : childu.writeFile (r :: rest) c with
              | none => rw [hw] at h; simp at h
              | some child' =>
                rw [hw] at h
                simp only [Option.some.injEq] at h
                subst h
                simp only [Tree.lookup, assocFind_set_self]
                cases q' with
                | nil =>
                  simp only [Tree.lookup, Option.some.injEq] at hq
                  subst hq
                  obtain ⟨X, rfl⟩ := writeFile_shape r rest ds c child' hw
                  exact ⟨_, rfl⟩
                | cons w q'' =>
                  exact ih (w :: q'') childu child' hw ⟨ds, hq⟩
          · obtain ⟨X, rfl⟩ := writeFile_shape s p' cs c t' h
            refine ⟨ds, ?_⟩
            simp only [Tree.lookup, assocFind_set_other cs s u X hus, hfu]
            exact hq

theorem mkdirs_of_dir (p : List Str) (t : Tree) (hd : ∃ ds, t.lookup p = some (.dir ds)) :
    t.mkdirs p = some t := by
  induction p generalizing t with
  | nil =>
    obtain ⟨ds, hd⟩ := hd
    simp only [Tree.lookup, Option.some.injEq] at hd
    subst hd
    rfl
  | cons s p' ih =>
    obtain ⟨ds, hd⟩ := hd
    cases t with
    | file c0 => simp [Tree.lookup] at hd
    | dir cs =>
      simp only [Tree.lookup] at hd
      cases hf : assocFind cs s with
      | none => rw [hf] at hd; simp at hd
      | some child =>
        rw [hf] at hd
        simp only [] at hd
        simp only [Tree.mkdirs, hf]
        rw [ih child ⟨ds, hd⟩]
        simp [assocSet_find_self cs s child hf]

theorem lookup_mkdirs_dir (p : List Str) (t t' : Tree) (h : t.mkdirs p = some t') :
    ∃ ds, t'.lookup p = some (.dir ds) := by
  induction p generalizing t t' with
  | nil =>
    cases t with
    | file c0 => simp [Tree.mkdirs] at h
    | dir cs =>
      simp only [Tree.mkdirs, Option.some.injEq] at h
      subst h
      exact ⟨cs, rfl⟩
  | cons s p' ih =>
    cases t with
    | file c0 => simp [Tree.mkdirs] at h
    | dir cs =>
      simp only [Tree.mkdirs] at h
      cases hf : assocFind cs s with
      | none =>
        rw [hf] at h
        simp only [] at h
        cases hm : Tree.mkdirs (.dir []) p' with
        | none => rw [hm] at h; simp at h
        | some child' =>
          rw [hm] at h
          simp only [Option.some.injEq] at h
          subst h
          obtain ⟨ds, hds⟩ := ih _ _ hm
          exact ⟨ds, by simp only [Tree.lookup, assocFind_set_self]; exact hds⟩
      | some child =>
        rw [hf] at h
        simp only [] at h
        cases hm : child.mkdirs p' with
        | none => rw [hm] at h; simp at h
        | some child' =>
          rw [hm] at h
          simp only [Option.some.injEq] at h
          subst h
          obtain ⟨ds, hds⟩ := ih _ _ hm
          exact ⟨ds, by simp only [Tree.lookup, assocFind_set_self]; exact hds⟩

theorem lookup_mkdirs_file_pres (p q : List Str) (t t' : Tree) (c : Str)
    (h : t.mkdirs p = some t') (hq : t.lookup q = some (.file c)) :
    t'.lookup q = some (.file c) := by
  induction p generalizing t t' q with
  | nil =>
    cases t with
    | file c0 => simp [Tree.mkdirs] at h
    | dir cs =>
      simp only [Tree.mkdirs, Option.some.injEq] at h
      subst h
      exact hq
  | cons s p' ih =>
    cases t with
    | file c0 => simp [Tree.mkdirs] at h
    | dir cs =>
      cases q with
      | nil => simp [Tree.lookup] at hq
      | cons u q' =>
        simp only [Tree.lookup] at hq
        cases hfu : assocFind cs u with
        | none => rw [hfu] at hq; simp at hq
        | some childu =>
          rw [hfu] at hq
          simp only [] at hq
          simp only [Tree.mkdirs] at h
          by_cases hus : u = s
          · subst hus
            rw [hfu] at h
            simp only [] at h
            cases hm : childu.mkdirs p' with
            | none => rw [hm] at h; simp at h
            | some child' =>
              rw [hm] at h
              simp only [Option.some.injEq] at h
              subst h
              simp only [Tree.lookup, assocFind_set_self]
              exact ih q' childu child' hm hq
          · cases hf : assocFind cs s with
            | none =>
              rw [hf] at h
              simp only [] at h
              cases hm : Tree.mkdirs (.dir []) p' with
              | none => rw [hm] at h; simp at h
              | some child' =>
                rw [hm] at h
                simp only [Option.some.injEq] at h
                subst h
                simp only [Tree.lookup, assocFind_set_other cs s u child' hus, hfu]
                exact hq
            | some child =>
              rw [hf] at h
              simp only [] at h
              cases hm : child.mkdirs p' with
              | none => rw [hm] at h; simp at h
              | some child' =>
                rw [hm] at h
                simp only [Option.some.injEq] at h
                subst h
                simp only [Tree.lookup, assocFind_set_other cs s u child' hus, hfu]
                exact hq

theorem lookup_removePath_self (p : List Str) (t : Tree) (hp : p ≠ []) :
    (t.removePath p).lookup p = none := by
  induction p generalizing t with
  | nil => exact absurd rfl hp
  | cons s p' ih =>
    cases t with
    | file c0 =>
      cases p' <;> simp [Tree.removePath, Tree.lookup]
    | dir cs =>
      cases p' with
      | nil =>
        simp only [Tree.removePath, Tree.lookup, assocFind_remove_self]
      | cons r rest =>
        simp only [Tree.removePath]
        cases hf : assocFind cs s with
        | none => simp [Tree.lookup, hf]
        | some child =>
          simp only [Tree.lookup, assocFind_set_self]
          exact ih child (by simp)

theorem lookup_removePath_none_pres (p q : List Str) (t : Tree)
    (hq : t.lookup q = none) : (t.removePath p).lookup q = none := by
  induction p generalizing t q with
  | nil => simpa [Tree.removePath] using hq
  | cons s p' ih =>
    cases t with
    | file c0 =>
      cases p' <;> simpa [Tree.removePath] using hq
    | dir cs =>
      cases q with
      | nil => simp [Tree.lookup] at hq
      | cons u q' =>
        simp only [Tree.lookup] at hq
        cases p' with
        | nil =>
          by_cases hus : u = s
          · subst hus
            simp [Tree.removePath, Tree.lookup, assocFind_remove_self]
          · simp only [Tree.removePath, Tree.lookup, assocFind_remove_other cs s u hus]
            exact hq
        | cons r rest =>
          simp only [Tree.removePath]
          cases hf : assocFind cs s with
          | none => simpa [Tree.lookup] using hq
          | some child =>
            by_cases hus : u = s
            · subst hus
              rw [hf] at hq
              simp only [] at hq
              simp only [Tree.lookup, assocFind_set_self]
              exact ih q' child hq
            · simp only [Tree.lookup, assocFind_set_other cs s u _ hus]
              exact hq

/-! ## Dictionary lemmas -/

theorem dictUpdate_nil (m : Meta) : dictUpdate m [] = m := rfl

theorem dictUpdate_cons (m : Meta) (k : Str) (v : YVal) (u : Meta) :
    dictUpdate m ((k, v) :: u) = dictUpdate (dictSet m k v) u := rfl

theorem dictGet_dictSet_other (m : Meta) (k q : Str) (v : YVal) (h : q ≠ k) :
    dictGet (dictSet m k v) q = dictGet m q := by
  induction m with
  | nil =>
    simp only [dictSet, dictGet]
    rw [if_neg (fun hEq => h hEq.symm)]
  | cons p rest ih =>
    obtain ⟨k', v'⟩ := p
    by_cases hk : k' = k
    · subst hk
      simp only [dictSet, if_pos rfl, dictGet]
      rw [if_neg (fun hEq => h hEq.symm), if_neg (fun hEq => h hEq.symm)]
    · simp only [dictSet, if_neg hk, dictGet]
      by_cases hq : k' = q
      · simp [hq]
      · simp [hq, ih]

theorem dictGet_dictUpdate_none (m u : Meta) (k : Str) (hu : dictGet u k = none) :
    dictGet (dictUpdate m u) k = dictGet m k := by
  induction u generalizing m with
  | nil => rfl
  | cons p u' ih =>
    obtain ⟨k', v'⟩ := p
    simp only [dictGet] at hu
    by_cases hk : k' = k
    · rw [if_pos hk] at hu
      exact absurd hu (by simp)
    · rw [if_neg hk] at hu
      rw [dictUpdate_cons, ih _ hu, dictGet_dictSet_other m k' k v' (fun hEq => hk hEq.symm)]

theorem dictGet_defaultMeta_task (name : Str) (isDir isMd : Bool) (oid onow : Str) :
    dictGet (defaultMeta name isDir isMd oid onow) ("task".toList) = none := by
  simp only [defaultMeta, dictGet]
  rw [if_neg (by decide), if_neg (by decide), if_neg (by decide), if_neg (by decide),
    if_neg (by decide)]

theorem normAbs_append_singleton (xs : List Str) (s : Str)
    (h1 : s ≠ "..".toList) (h2 : s ≠ ".".toList) (h3 : s ≠ []) :
    normAbs (xs ++ [s]) = normAbs xs ++ [s] := by
  have e1 : ¬(s = ['.', '.']) := by simpa using h1
  have e2 : ¬(s = ['.']) := by simpa using h2
  simp [normAbs, List.foldl_append, normStep, e1, e2, h3]

theorem long_suffix_ne (x y : Str) (h : 2 < y.length) :
    x ++ y ≠ "..".toList ∧ x ++ y ≠ ".".toList ∧ x ++ y ≠ [] := by
  refine ⟨?_, ?_, ?_⟩ <;> intro hEq
  · have hs : y.length ≤ 2 := by
      have hl := (List.suffix_append x y).length_le
      rw [hEq] at hl
      simpa using hl
    omega
  · have hs : y.length ≤ 1 := by
      have hl := (List.suffix_append x y).length_le
      rw [hEq] at hl
      simpa using hl
    omega
  · have hy : y = [] := (List.append_eq_nil.mp hEq).2
    rw [hy] at h
    simp at h

theorem endsWith_md_ne_special (f : Str) (h : endsWithStr f (".md".toList) = true) :
    f ≠ "..".toList ∧ f ≠ ".".toList ∧ f ≠ [] := by
  refine ⟨?_, ?_, ?_⟩ <;> intro hEq <;> rw [hEq] at h <;> exact absurd h (by decide)

theorem readNode_some_spec (t : Tree) (proj : List Str) (path : Path) (oid onow : Str)
    (n : NodeOut) (h : readNode t proj path oid onow = some n) :
    n.path = path ∧ n.name = path.getLastD [] ∧
    n.isMarkdown = endsWithStr (path.getLastD []) (".md".toList) ∧
    ∃ e, t.lookup (normAbs (proj ++ path)) = some e ∧
      n.isDirectory = (match e with | .dir _ => true | .file _ => false) := by
  simp only [readNode] at h
  cases hl : t.lookup (normAbs (proj ++ path)) with
  | none => rw [hl] at h; simp at h
  | some e =>
    rw [hl] at h
    simp only [] at h
    rw [ite_eq_iff] at h
    rcases h with ⟨_, hcontra⟩ | ⟨_, h⟩
    · exact absurd hcontra (by simp)
    · simp only [Option.some.injEq] at h
      subst h
      exact ⟨rfl, rfl, rfl, e, rfl, rfl⟩

/-- Reading a non-markdown file node whose sidecar holds a well-formed
front-matter document without a `task` key yields the sidecar metadata
overlaid on freshly generated defaults, with no content. -/
theorem readNode_nonmd_sidecar (t : Tree) (proj : List Str) (path : Path) (oid onow : Str)
    (c : Str) (ms : Meta) (bs : Str)
    (hl : t.lookup (normAbs (proj ++ path)) = some (.file c))
    (hmd : endsWithStr (path.getLastD []) (".md".toList) = false)
    (hsc : t.lookup (sidecarAbs proj path) =
      some (.file (stringifyMarkdownWithFrontmatter ms bs)))
    (hms : reprMeta ms = true)
    (htk : dictGet ms ("task".toList) = none) :
    readNode t proj path oid onow =
      some { path := path
             name := path.getLastD []
             isDirectory := false
             isMarkdown := false
             metadata := dictUpdate (defaultMeta (path.getLastD []) false false oid onow) ms
             content := none
             parent := if 2 ≤ path.length then some path.dropLast else none
             children := []
             softLinks := getLinks
               (dictUpdate (defaultMeta (path.getLastD []) false false oid onow) ms)
             hasTask := (dictGet (dictUpdate (defaultMeta (path.getLastD []) false false oid onow)
               ms) ("task".toList)).isSome
             taskStatus := none } := by
  unfold readNode
  rw [hl]
  simp only [hmd, Bool.false_eq_true, if_false, hsc, parse_stringify_roundtrip ms bs hms,
    dictGet_dictUpdate_none _ ms ("task".toList) htk, dictGet_defaultMeta_task,
    Option.isSome_none]

/-! ## The claims -/

/-- C1: claimed — every Node Store operation rejects a path whose normalised
resolution leaves the project root.  The code has no containment check at all:
`os.path.join(self.project_path, path)` is used directly, so
`../../etc/passwd` resolves to `/etc/passwd`, `read_node` happily returns the
outside file's node, and `delete_node` removes the outside file.  This theorem
evaluates the embedded operations at that failing input. -/
theorem c1_path_traversal_not_rejected :
    normAbs (projC1 ++ evilPath) = ["etc".toList, "passwd".toList] ∧
    projC1.isPrefixOf (normAbs (projC1 ++ evilPath)) = false ∧
    (readNode tC1 projC1 evilPath "i".toList "n".toList).map
      (fun n => (n.isDirectory, n.content)) = some (false, none) ∧
    deleteNodeTree tC1 projC1 evilPath =
      some (.dir [("etc".toList, .dir []),
        ("home".toList, .dir [("proj".toList, .dir [("a.md".toList, .file "x".toList)])])]) :=
  ⟨rfl, rfl, rfl, rfl⟩

/-- C2: for every metadata map representable in the structured front-matter
format and every body string, decoding the encoding is the identity. -/
theorem c2_codec_roundtrip (m : Meta) (b : Str) (h : reprMeta m = true) :
    parseMarkdownWithFrontmatter (stringifyMarkdownWithFrontmatter m b) = (m, b) :=
  parse_stringify_roundtrip m b h

/-- Witness for C2 at a concrete metadata map and a body containing a `---`
line of its own. -/
theorem c2_codec_roundtrip_witness :
    reprMeta mC2 = true ∧
    parseMarkdownWithFrontmatter (stringifyMarkdownWithFrontmatter mC2 bC2) = (mC2, bC2) :=
  ⟨by decide, c2_codec_roundtrip mC2 bC2 (by decide)⟩

/-- C6: `delete(path)` raises `NotFound` exactly when the path is missing;
on success it removes the primary entry together with its whole subtree and
the sidecar, and a subsequent `read(path)` returns none rather than
raising. -/
theorem c6_delete_removes_node (t : Tree) (proj : List Str) (path : Path)
    (hne : normAbs (proj ++ path) ≠ []) (hscar : sidecarAbs proj path ≠ []) :
    (t.lookup (normAbs (proj ++ path)) = none → deleteNodeTree t proj path = none) ∧
    (∀ t', deleteNodeTree t proj path = some t' →
      (∀ suffix, t'.lookup (normAbs (proj ++ path) ++ suffix) = none) ∧
      t'.lookup (sidecarAbs proj path) = none ∧
      ∀ oid onow, readNode t' proj path oid onow = none) := by
  constructor
  · intro h0
    simp only [deleteNodeTree, h0]
  · intro t' h
    simp only [deleteNodeTree] at h
    cases hl : t.lookup (normAbs (proj ++ path)) with
    | none => rw [hl] at h; simp at h
    | some e =>
      rw [hl] at h
      simp only [] at h
      have hfull : (t.removePath (normAbs (proj ++ path))).lookup (normAbs (proj ++ path))
          = none := lookup_removePath_self _ t hne
      cases hs : (t.removePath (normAbs (proj ++ path))).lookup (sidecarAbs proj path) with
      | none =>
        rw [hs] at h
        simp only [Option.some.injEq] at h
        subst h
        refine ⟨?_, hs, ?_⟩
        · intro suffix
          rw [lookup_append]
          simp [hfull]
        · intro oid onow
          simp [readNode, hfull]
      | some e2 =>
        rw [hs] at h
        simp only [Option.some.injEq] at h
        subst h
        have hfull2 : ((t.removePath (normAbs (proj ++ path))).removePath
            (sidecarAbs proj path)).lookup (normAbs (proj ++ path)) = none :=
          lookup_removePath_none_pres _ _ _ hfull
        refine ⟨?_, lookup_removePath_self _ _ hscar, ?_⟩
        · intro suffix
          rw [lookup_append]
          simp [hfull2]
        · intro oid onow
          simp [readNode, hfull2]

/-- Witness for C6: deleting the non-structured node with a sidecar leaves
neither file present and makes `read` return none. -/
theorem c6_delete_removes_node_witness :
    deleteNodeTree tC6 projC6 pathC6 = some tC6' ∧
    tC6'.lookup (normAbs (projC6 ++ pathC6)) = none ∧
    tC6'.lookup (sidecarAbs projC6 pathC6) = none ∧
    readNode tC6' projC6 pathC6 "i".toList "n".toList = none := by
  have h := (c6_delete_removes_node tC6 projC6 pathC6 (by decide) (by decide)).2 tC6' rfl
  refine ⟨rfl, ?_, h.2.1, h.2.2 _ _⟩
  have := h.1 []
  simpa using this

/-- C7: `ensureDefaultTemplate` is idempotent — once a first call has
succeeded, any later call (with either seeding branch and any timestamp)
returns the same state unchanged: exactly one default template, never
overwritten, its `created` timestamp untouched. -/
theorem c7_ensure_template_idempotent (t t₁ : Tree) (proj : List Str)
    (a₁ a₂ : Option Str) (n₁ n₂ : Str)
    (h : createEmptyTemplate t proj a₁ n₁ = some t₁) :
    createEmptyTemplate t₁ proj a₂ n₂ = some t₁ := by
  simp only [createEmptyTemplate] at h ⊢
  cases hm : t.mkdirs (normAbs (proj ++ [("templates".toList)])) with
  | none => rw [hm] at h; simp at h
  | some t₀ =>
    rw [hm] at h
    simp only [] at h
    obtain ⟨ds, hds⟩ := lookup_mkdirs_dir _ t t₀ hm
    cases hl : t₀.lookup (normAbs (proj ++ [("templates".toList)]) ++ [("Empty.md".toList)]) with
    | some e =>
      rw [hl] at h
      simp only [Option.some.injEq] at h
      rw [← h]
      simp only [mkdirs_of_dir _ t₀ ⟨ds, hds⟩, hl]
    | none =>
      rw [hl] at h
      simp only [] at h
      have hwrite : ∃ fc, t₀.writeFile
          (normAbs (proj ++ [("templates".toList)]) ++ [("Empty.md".toList)]) fc = some t₁ := by
        cases a₁ with
        | some asset => exact ⟨_, h⟩
        | none => exact ⟨_, h⟩
      obtain ⟨fc, hw⟩ := hwrite
      obtain ⟨ds', hds'⟩ := lookup_writeFile_dir_pres _ _ t₀ t₁ fc hw ⟨ds, hds⟩
      simp only [mkdirs_of_dir _ t₁ ⟨ds', hds'⟩, lookup_writeFile_self _ t₀ t₁ fc hw]

/-- Witness for C7: on a fresh project the first call writes the default
template (here via the synthesizing branch) and the second call, offered a
different asset and a later clock, changes nothing. -/
theorem c7_ensure_template_idempotent_witness :
    createEmptyTemplate tC7 projC6 none ("NOWa".toList) = some tC7' ∧
    createEmptyTemplate tC7' projC6 (some ("ASSET".toList)) ("NOWb".toList) = some tC7' :=
  ⟨rfl, c7_ensure_template_idempotent tC7 tC7' projC6 none (some ("ASSET".toList))
    ("NOWa".toList) ("NOWb".toList) rfl⟩

unseal replaceAll parseLinesMeta in
/-- Counterexample for C9: the claim's scope is every existing non-structured
node, but when the node's sidecar front matter carries a `task` value — which
is never a map inside the modelled fragment — the source raises
`AttributeError` inside the initial `read_node` and writes nothing, instead of
rewriting the sidecar with merged metadata as claimed. -/
theorem c9_update_nonmap_task_counterexample :
    tC9x.lookup (normAbs (projC6 ++ [("data.bin".toList)])) =
      some (.file ("BYTES".toList)) ∧
    readNode tC9x projC6 [("data.bin".toList)] ("i".toList) ("n".toList) = none ∧
    updateNodeTree tC9x projC6 [("data.bin".toList)]
      (some [("title".toList, .s ("T".toList))]) (some ("NEW".toList))
      ("i".toList) ("n".toList) ("now2".toList) = none :=
  ⟨rfl, rfl, rfl⟩

/-- C9 amended: updating an existing non-structured node whose sidecar holds a
well-formed, `task`-free front-matter document leaves the primary file's bytes
unchanged, silently discards the content argument, and writes only the
sidecar, which carries the merged metadata with an empty body; on a sidecar
whose metadata carries a (necessarily non-map) `task` value the source raises
inside the initial read and writes nothing.  The representability hypothesis
`hrepr` pins the written map inside the fragment on which the model's dump is
exactly PyYAML's. -/
theorem c9_update_non_markdown (t : Tree) (proj : List Str) (path : Path)
    (mUpd : Meta) (cnt : Option Str) (ms : Meta) (bs : Str) (oid onow now₂ : Str) (c : Str)
    (hfile : t.lookup (normAbs (proj ++ path)) = some (.file c))
    (hmd : endsWithStr (path.getLastD []) (".md".toList) = false)
    (hscar : sidecarAbs proj path ≠ normAbs (proj ++ path))
    (hscne : sidecarAbs proj path ≠ [])
    (hsc : t.lookup (sidecarAbs proj path) =
      some (.file (stringifyMarkdownWithFrontmatter ms bs)))
    (hms : reprMeta ms = true)
    (htk : dictGet ms ("task".toList) = none)
    (hrepr : reprMeta (dictSet (dictUpdate (dictUpdate
      (defaultMeta (path.getLastD []) false false oid onow) ms) mUpd)
      ("modified".toList) (.s now₂)) = true) :
    ∃ t', updateNodeTree t proj path (some mUpd) cnt oid onow now₂ = some t' ∧
      t'.lookup (normAbs (proj ++ path)) = some (.file c) ∧
      t'.lookup (sidecarAbs proj path) = some (.file
        (stringifyMarkdownWithFrontmatter
          (dictSet (dictUpdate (dictUpdate (defaultMeta (path.getLastD []) false false oid onow)
            ms) mUpd) ("modified".toList) (.s now₂)) [])) ∧
      ∀ cnt₂, updateNodeTree t proj path (some mUpd) cnt₂ oid onow now₂ = some t' := by
  have hread := readNode_nonmd_sidecar t proj path oid onow c ms bs hfile hmd hsc hms htk
  obtain ⟨t', hw⟩ := writeFile_some_of_lookup_file (sidecarAbs proj path) t _
    (stringifyMarkdownWithFrontmatter
      (dictSet (dictUpdate (dictUpdate (defaultMeta (path.getLastD []) false false oid onow)
        ms) mUpd) ("modified".toList) (.s now₂)) []) hscne hsc
  refine ⟨t', ?_, ?_, ?_, ?_⟩
  · simp only [updateNodeTree, hread]
    rw [if_neg (by simp)]
    exact hw
  · exact lookup_writeFile_file_other _ _ t t' _ c hw hfile (fun hEq => hscar hEq.symm)
  · exact lookup_writeFile_self _ t t' _ hw
  · intro cnt₂
    simp only [updateNodeTree, hread]
    rw [if_neg (by simp)]
    exact hw

unseal replaceAll parseLinesMeta in
/-- Witness for the amended C9: updating the binary node of `tC9w` leaves
`BYTES` in place and rewrites only the sidecar with the merged metadata. -/
theorem c9_update_non_markdown_witness :
    ∃ t', updateNodeTree tC9w projC6 [("data.bin".toList)]
        (some [("title".toList, .s ("T".toList))]) (some ("NEW".toList))
        ("oidX".toList) ("nowX".toList) ("nowY".toList) = some t' ∧
      t'.lookup (normAbs (projC6 ++ [("data.bin".toList)])) =
        some (.file ("BYTES".toList)) ∧
      t'.lookup (sidecarAbs projC6 [("data.bin".toList)]) = some (.file
        (stringifyMarkdownWithFrontmatter
          (dictSet (dictUpdate (dictUpdate (defaultMeta ("data.bin".toList) false false
            ("oidX".toList) ("nowX".toList)) mC9s) [("title".toList, .s ("T".toList))])
            ("modified".toList) (.s ("nowY".toList))) [])) ∧
      ∀ cnt₂, updateNodeTree tC9w projC6 [("data.bin".toList)]
        (some [("title".toList, .s ("T".toList))]) cnt₂
        ("oidX".toList) ("nowX".toList) ("nowY".toList) = some t' :=
  c9_update_non_markdown tC9w projC6 [("data.bin".toList)]
    [("title".toList, .s ("T".toList))] (some ("NEW".toList)) mC9s []
    ("oidX".toList) ("nowX".toList) ("nowY".toList) ("BYTES".toList)
    rfl (by decide) (by decide) (by decide) rfl (by decide) (by decide) (by decide)

unseal replaceAll parseLinesMeta in
/-- Counterexample for C3: a name sanitizing to the empty string does NOT
make `create` fail with `InvalidArgument` — the call succeeds and creates the
hidden file `.md` under the parent. -/
theorem c3_empty_name_counterexample :
    sanitizeFilename ("   ".toList) = [] ∧
    createNodeTree tC7 projC6 [] ("   ".toList) ("file".toList) none none
      ("oidE".toList) ("nowE".toList) = some (tC3', [(".md".toList)]) ∧
    (tC3'.lookup ["p".toList, ".md".toList]).isSome = true :=
  ⟨rfl, rfl, rfl⟩

/-- C3 amended: `create` performs no validation of the sanitised name; when
the name sanitises to the empty string and the filesystem writes succeed, it
creates — rather than rejecting — the hidden file `.md` under the parent
directory and returns its path. -/
theorem c3_empty_name_amended (t : Tree) (proj : List Str) (parentPath : Path)
    (name : Str) (nodeType : Str) (im : Option Meta) (ic : Option Str) (oid onow : Str)
    (hs : sanitizeFilename name = []) (t' : Tree) (p : Path)
    (hc : createNodeTree t proj parentPath name nodeType im ic oid onow = some (t', p)) :
    p = parentPath ++ [(".md".toList)] ∧
    (t'.lookup (normAbs (proj ++ parentPath) ++ [(".md".toList)])).isSome = true := by
  simp only [createNodeTree, hs] at hc
  cases hm : t.mkdirs (normAbs (proj ++ parentPath)) with
  | none => rw [hm] at hc; simp at hc
  | some t₁ =>
    rw [hm] at hc
    simp only [] at hc
    have hmd : endsWithStr ([] : Str) (".md".toList) = false := rfl
    rw [hmd] at hc
    simp only [Bool.false_eq_true, if_false, List.nil_append] at hc
    cases hw : t₁.writeFile (normAbs (proj ++ parentPath) ++ [(".md".toList)])
        (stringifyMarkdownWithFrontmatter _ _) with
    | none => rw [hw] at hc; simp at hc
    | some t₂ =>
      rw [hw] at hc
      simp only [Option.some.injEq, Prod.mk.injEq] at hc
      obtain ⟨rfl, rfl⟩ := hc
      refine ⟨rfl, ?_⟩
      rw [lookup_writeFile_self _ t₁ t₂ _ hw]
      rfl

unseal replaceAll parseLinesMeta in
/-- Witness for the amended C3 at the concrete empty-name call. -/
theorem c3_empty_name_amended_witness :
    [(".md".toList)] = ([] : Path) ++ [(".md".toList)] ∧
    (tC3'.lookup (normAbs (projC6 ++ []) ++ [(".md".toList)])).isSome = true := by
  have h := c3_empty_name_amended tC7 projC6 [] ("   ".toList) ("file".toList) none none
    ("oidE".toList) ("nowE".toList) rfl tC3' [(".md".toList)] rfl
  exact ⟨by simp, h.2⟩

/-- Any node emitted by `list` with the default exclusion whose path mentions
`templates` can only mention it as its final segment. -/
theorem c5_list_restriction (t : Tree) (proj : List Str) (dir : Option Path)
    (oid onow : Str) (n : NodeOut)
    (hmem : n ∈ listNodes t proj dir true oid onow)
    (htmpl : "templates".toList ∈ n.path) :
    n.path.getLast? = some ("templates".toList) ∧ "templates".toList ∉ n.path.dropLast := by
  simp only [listNodes, true_and] at hmem
  obtain ⟨fr, hfr, hn⟩ := List.mem_flatMap.mp hmem
  by_cases hex : "templates".toList ∈ fr.1
  · rw [if_pos hex] at hn
    simp at hn
  · rw [if_neg hex] at hn
    have hfinish : ∀ x : Str, n.path = fr.1 ++ [x] →
        n.path.getLast? = some ("templates".toList) ∧
        "templates".toList ∉ n.path.dropLast := by
      intro x hpath
      rw [hpath] at htmpl ⊢
      rcases List.mem_append.mp htmpl with hinr | hind
      · exact absurd hinr hex
      · have hx : ("templates".toList : Str) = x := by simpa using hind
        subst hx
        constructor
        · simp
        · simpa using hex
    rcases List.mem_append.mp hn with hd | hf
    · obtain ⟨d, hdmem, hread⟩ := List.mem_filterMap.mp hd
      by_cases h1 : d.head? = some '.'
      · rw [if_pos h1] at hread; simp at hread
      · rw [if_neg h1] at hread
        by_cases h2 : fr.1 = [] ∧ d = "templates".toList
        · rw [if_pos h2] at hread; simp at hread
        · rw [if_neg h2] at hread
          exact hfinish d (readNode_some_spec _ _ _ _ _ _ hread).1
    · obtain ⟨f, hfmem, hread⟩ := List.mem_filterMap.mp hf
      by_cases h1 : f.head? = some '.'
      · rw [if_pos h1] at hread; simp at hread
      · rw [if_neg h1] at hread
        by_cases h2 : endsWithStr f (".metadata.md".toList) = true
        · rw [if_pos h2] at hread; simp at hread
        · rw [if_neg h2] at hread
          exact hfinish f (readNode_some_spec _ _ _ _ _ _ hread).1

/-- Counterexample for C5: with the default exclusion, `list` still returns a
directory node whose path contains a `templates` segment — the nested
directory `sub/templates` itself. -/
theorem c5_list_templates_counterexample :
    ∃ n ∈ listNodes tC5 projC5 none true ("i".toList) ("n".toList),
      "templates".toList ∈ n.path ∧ n.isDirectory = true := by decide

/-- C5 amended: with the default exclusion, `list` returns no node whose path
has a `templates` segment anywhere except as the node's own final segment (a
nested directory named `templates`, or a file so named, is still listed while
its contents and the root-level `templates` tree are excluded); with
`excludeTemplates = false` the templates nodes are included. -/
theorem c5_list_templates_amended :
    (∀ t proj dir oid onow n, n ∈ listNodes t proj dir true oid onow →
      "templates".toList ∈ n.path →
      n.path.getLast? = some ("templates".toList) ∧
      "templates".toList ∉ n.path.dropLast) ∧
    ((listNodes tC5 projC5 none false ("i".toList) ("n".toList)).map NodeOut.path =
      [[("sub".toList)], [("templates".toList)],
       ["sub".toList, "templates".toList],
       ["sub".toList, "templates".toList, "x.md".toList],
       ["templates".toList, "t.md".toList]]) :=
  ⟨fun t proj dir oid onow n hm ht => c5_list_restriction t proj dir oid onow n hm ht,
   by decide⟩

/-- Witness for the amended C5 at the nested `sub/templates` node of the
concrete listing. -/
theorem c5_list_templates_amended_witness :
    ((listNodes tC5 projC5 none true ("i".toList) ("n".toList)).get
        ⟨1, by decide⟩).path.getLast? = some ("templates".toList) ∧
    "templates".toList ∉
      ((listNodes tC5 projC5 none true ("i".toList) ("n".toList)).get
        ⟨1, by decide⟩).path.dropLast :=
  c5_list_templates_amended.1 tC5 projC5 none ("i".toList) ("n".toList) _
    (by decide) (by decide)

/-- Counterexample for C8: with default root `/srv/repos`, a project whose
configured local path `/home/user/x/../srv/repos-evil` resolves to
`/home/user/srv/repos-evil` passes the substring guard, so the repository is
recursively deleted even though the resolved path lies outside the default
root and differs from the configured path. -/
theorem c8_delete_guard_counterexample :
    (deleteProjectRepository tC8 cfgC8 rootC8 ("/w".toList) ("7".toList)).2 = true ∧
    ((deleteProjectRepository tC8 cfgC8 rootC8 ("/w".toList) ("7".toList)).1.lookup
      ["home".toList, "user".toList, "srv".toList, "repos-evil".toList]).isNone = true ∧
    (tC8.lookup ["home".toList, "user".toList, "srv".toList, "repos-evil".toList]).isSome
      = true ∧
    pathInside ("/w".toList) rootC8
      (determineRepoPath cfgC8 rootC8 ("/w".toList) ("7".toList)) = false ∧
    cfgC8.cpath ≠ some (determineRepoPath cfgC8 rootC8 ("/w".toList) ("7".toList)) := by
  refine ⟨rfl, rfl, rfl, rfl, ?_⟩
  intro hEq
  exact absurd (congrArg (fun o => o.map List.length) hEq) (by decide)

/-- C8 amended: repository deletion happens only when the default projects
root occurs as a substring of the resolved repo path or the configured path
string equals it exactly — a textual test, not path containment — and when
neither holds the call refuses and deletes nothing. -/
theorem c8_delete_guard_amended (t : Tree) (cfg : GitCfg) (root cwd pid : Str) :
    ((deleteProjectRepository t cfg root cwd pid).2 = true →
      strInfixOf root (determineRepoPath cfg root cwd pid) = true ∨
      cfg.cpath = some (determineRepoPath cfg root cwd pid)) ∧
    ((strInfixOf root (determineRepoPath cfg root cwd pid) = false ∧
      cfg.cpath ≠ some (determineRepoPath cfg root cwd pid)) →
      deleteProjectRepository t cfg root cwd pid = (t, false)) := by
  simp only [deleteProjectRepository]
  cases hl : t.lookup (repoAbsSegs cwd (determineRepoPath cfg root cwd pid)) with
  | none => exact ⟨fun h => absurd h (by simp), fun _ => rfl⟩
  | some e =>
    by_cases hg : strInfixOf root (determineRepoPath cfg root cwd pid) = true ∨
        cfg.cpath = some (determineRepoPath cfg root cwd pid)
    · rw [if_pos hg]
      exact ⟨fun _ => hg, fun hc => absurd hg (by
        rcases hc with ⟨h1, h2⟩
        rintro (hinf | heq)
        · rw [h1] at hinf; exact absurd hinf (by simp)
        · exact h2 heq)⟩
    · rw [if_neg hg]
      exact ⟨fun h => absurd h (by simp), fun _ => rfl⟩

/-- Witness for the amended C8: the counterexample configuration fires the
substring disjunct, and a configuration matching neither disjunct is
refused. -/
theorem c8_delete_guard_amended_witness :
    (strInfixOf rootC8 (determineRepoPath cfgC8 rootC8 ("/w".toList) ("7".toList)) = true ∨
      cfgC8.cpath = some (determineRepoPath cfgC8 rootC8 ("/w".toList) ("7".toList))) ∧
    deleteProjectRepository tC8 ⟨some ("local".toList), some ("/x/../abc".toList)⟩
      rootC8 ("/w".toList) ("7".toList) =
      (tC8, false) := by
  constructor
  · exact (c8_delete_guard_amended tC8 cfgC8 rootC8 ("/w".toList) ("7".toList)).1 rfl
  · refine (c8_delete_guard_amended tC8 ⟨some ("local".toList), some ("/x/../abc".toList)⟩
      rootC8 ("/w".toList) ("7".toList)).2 ⟨rfl, ?_⟩
    intro hEq
    exact absurd (congrArg (fun o => o.map List.length) hEq) (by decide)

end Verbweaver
